import Mathlib

/-!
Verification of the `corpustools` repository (ternary search tree,
median-split insertion order, n-gram language model) against its
natural-language specification.

Strings are embedded as `List Char`; Python `None` children of tree
nodes are embedded as the `nil` constructor of the node type; numpy
floating-point arrays are embedded as `List ℚ`.
-/

/-! ### Ternary search tree (`tst.py`) -/

/-- Embeds `Node` from `tst.py`: one character, a count, and the three
child links.  A Python `None` child is the `nil` constructor. -/
inductive Node where
  | nil : Node
  | node (char : Char) (count : Nat) (lo eq hi : Node) : Node
deriving DecidableEq

/-- Embeds the comparison `rest[0] == self.splitchar` from
`TernarySearchTree._insert`: the splitchar may be `None`, which no
character equals. -/
def splitEq (sc : Option Char) (r : Char) : Bool :=
  match sc with
  | some c => r == c
  | none => false

/-- The branch of `TernarySearchTree._insert` reached when `node is None`:
the insert only ever follows freshly created `eq` links, so it builds a
single chain, incrementing the terminal node and each node whose next
character is the splitchar. -/
def fresh (sc : Option Char) : List Char → Node
  | [] => .nil
  | [ch] => .node ch 1 .nil .nil .nil
  | ch :: r :: rest =>
      .node ch (if splitEq sc r then 1 else 0) .nil (fresh sc (r :: rest)) .nil

/-- Embeds `TernarySearchTree._insert(string, node)` (tst.py lines 105-131). -/
def nodeInsert (sc : Option Char) (s : List Char) (t : Node) : Node :=
  match s, t with
  | [], t => t
  | s, .nil => fresh sc s
  | ch :: rest, .node c k l e r =>
      if ch = c then
        match rest with
        | [] => .node c (k + 1) l e r
        | r0 :: _ =>
            .node c (if splitEq sc r0 then k + 1 else k) l (nodeInsert sc rest e) r
      else if ch < c then
        .node c k (nodeInsert sc s l) e r
      else
        .node c k l e (nodeInsert sc s r)

/-- Embeds `TernarySearchTree._search(string, node)` (tst.py lines 133-150). -/
def nodeSearch (s : List Char) (t : Node) : Node :=
  match s, t with
  | [], t => t
  | _, .nil => .nil
  | ch :: rest, .node c k l e r =>
      if ch = c then
        match rest with
        | [] => .node c k l e r
        | _ :: _ => nodeSearch rest e
      else if ch < c then nodeSearch s l
      else nodeSearch s r

/-- The count stored at the node that `string` ends in, or 0 when the
search fails; this is the non-empty-string branch of
`TernarySearchTree.frequency`. -/
def countAt (s : List Char) (t : Node) : Nat :=
  match nodeSearch s t with
  | .nil => 0
  | .node _ k _ _ _ => k

/-- Embeds `TernarySearchTree._completions(node)` (tst.py lines 152-171):
the node's own single-character completion when its count is nonzero,
then the `eq` subtree's completions prefixed with the node's character,
then the `lo` and `hi` subtrees' completions. -/
def nodeCompletions : Node → List (List Char × Nat)
  | .nil => []
  | .node c k l e r =>
      (if k ≠ 0 then [([c], k)] else []) ++
        (nodeCompletions e).map (fun p => (c :: p.1, p.2)) ++
        nodeCompletions l ++ nodeCompletions r

/-- The `eq` child of a node (`nil` for the empty tree). -/
def Node.eqChild : Node → Node
  | .nil => .nil
  | .node _ _ _ e _ => e

/-- Embeds the `TernarySearchTree` object: splitchar, root and total. -/
structure TernarySearchTree where
  splitchar : Option Char
  root : Node
  total : Nat
deriving DecidableEq

/-- Embeds `TernarySearchTree.insert(string)` (tst.py lines 32-41):
insert at the root and increment the total. -/
def TernarySearchTree.insert (t : TernarySearchTree) (s : List Char) :
    TernarySearchTree :=
  { t with root := nodeInsert t.splitchar s t.root, total := t.total + 1 }

/-- Embeds `TernarySearchTree.frequency(string)` (tst.py lines 43-69):
the empty string returns the total, otherwise the count at the node the
search ends in, or 0 when the search fails. -/
def TernarySearchTree.frequency (t : TernarySearchTree) (s : List Char) : Nat :=
  if s = [] then t.total
  else
    match nodeSearch s t.root with
    | .nil => 0
    | .node _ k _ _ _ => k

/-- Embeds `TernarySearchTree.__contains__` (tst.py lines 173-180): Python
returns `node.count` (truthy iff nonzero) when the search finds a node and
`False` otherwise. -/
def TernarySearchTree.contains (t : TernarySearchTree) (s : List Char) : Bool :=
  match nodeSearch s t.root with
  | .nil => false
  | .node _ k _ _ _ => k != 0

/-- Embeds `TernarySearchTree.completions(prefix)` (tst.py lines 71-103)
with the default flags `full=True, return_frequency=True`: find the node
the prefix ends in, move to its `eq` child when the prefix is non-empty,
and emit each completion with the prefix prepended. -/
def TernarySearchTree.completions (t : TernarySearchTree) (pre : List Char) :
    List (List Char × Nat) :=
  match nodeSearch pre t.root with
  | .nil => []
  | n =>
      let start := if pre = [] then n else n.eqChild
      (nodeCompletions start).map (fun p => (pre ++ p.1, p.2))

/-- A fresh tree as built by `TernarySearchTree.__init__`. -/
def emptyTST (sc : Option Char) : TernarySearchTree := ⟨sc, .nil, 0⟩

/-- The tree obtained by inserting the strings of `L` in order into a
fresh tree with splitchar `sc`. -/
def buildTST (sc : Option Char) (L : List (List Char)) : TernarySearchTree :=
  L.foldl TernarySearchTree.insert (emptyTST sc)

/-! ### Weighted insert, modelled from the spec -/

/-- Modelled from the spec: the `node is None` chain of the weighted insert
of §4.1, which is implemented in a compiled extension absent from the
reviewed sources (§9): the terminal node gains `w`, and when `subs` is
true every node whose next character is the splitchar also gains `w`. -/
def freshW (sc : Option Char) (w : Nat) (subs : Bool) : List Char → Node
  | [] => .nil
  | [ch] => .node ch w .nil .nil .nil
  | ch :: r :: rest =>
      .node ch (if subs && splitEq sc r then w else 0) .nil
        (freshW sc w subs (r :: rest)) .nil

/-- Modelled from the spec: the recursive weighted insert of §4.1
(`insert(key, weight, count_subsequences)`), absent from the reviewed
sources (§9).  It walks exactly as `TernarySearchTree._insert` does, adds
`w` at the terminal node, and adds `w` at subsequence boundaries only when
`subs` is true. -/
def nodeInsertW (sc : Option Char) (w : Nat) (subs : Bool) (s : List Char)
    (t : Node) : Node :=
  match s, t with
  | [], t => t
  | s, .nil => freshW sc w subs s
  | ch :: rest, .node c k l e r =>
      if ch = c then
        match rest with
        | [] => .node c (k + w) l e r
        | r0 :: _ =>
            .node c (if subs && splitEq sc r0 then k + w else k) l
              (nodeInsertW sc w subs rest e) r
      else if ch < c then
        .node c k (nodeInsertW sc w subs s l) e r
      else
        .node c k l e (nodeInsertW sc w subs s r)

/-- Modelled from the spec: the top-level weighted insert.  The tree total
grows by the inserted weight, so that §8's law `frequency(key) == Σwᵢ`
holds for the empty key as well. -/
def TernarySearchTree.insertW (t : TernarySearchTree) (s : List Char)
    (w : Nat) (subs : Bool) : TernarySearchTree :=
  { t with root := nodeInsertW t.splitchar w subs s t.root, total := t.total + w }
/-! ### Which nodes an insert increments -/

/-- The string-level condition under which one (weighted) insert of `x`
increments the node that `s` ends in: either `x` is exactly `s` (terminal
increment), or subsequence counting is on and `x` continues `s` with the
splitchar (subsequence-boundary increment). -/
def bumped (sc : Option Char) (subs : Bool) (x s : List Char) : Bool :=
  x == s ||
    (subs &&
      match sc with
      | some c => (s ++ [c]).isPrefixOf x
      | none => false)

/-- Embeds Python `splitchar.join(tokens)` for a one-character splitchar
(the default `"#"`). -/
def joinKey (sc : Char) : List (List Char) → List Char
  | [] => []
  | [t] => t
  | t :: ts => t ++ sc :: joinKey sc ts

/-! ### Completions: completeness, soundness, uniqueness -/

/-- The first characters reachable through `lo`/`hi` links: the characters
on which a search can match at this level. -/
def topChars : Node → List Char
  | .nil => []
  | .node c _ l _ r => topChars l ++ [c] ++ topChars r

/-- The search-tree ordering invariant of a TST node: all first characters
in `lo` are smaller than the node's character, all in `hi` larger, and the
same holds recursively (also below `eq`). -/
def WF : Node → Prop
  | .nil => True
  | .node c _ l e r =>
      (∀ a ∈ topChars l, a < c) ∧ (∀ a ∈ topChars r, c < a) ∧
        WF l ∧ WF e ∧ WF r

/-! ### Language model (`language_model.py`) -/

/-- Embeds `ContainsEverything` from `corpustools.py`: a predicate that
holds of every token. -/
def ContainsEverything : List Char → Bool := fun _ => true

/-- Embeds the `LanguageModel` object.  Tokens are strings (`List Char`);
the splitchar is embedded as the single character of the default `"#"`
(the tree's subsequence-boundary test compares one character).  The
membership containers are embedded as boolean predicates; `must_contain`
is optional, `none` standing for `None` or a falsy empty container. -/
structure LanguageModel where
  n : Nat
  boundary : List Char
  splitchar : Char
  vocabulary : List Char → Bool
  targets : List Char → Bool
  mustContain : Option (List Char → Bool)
  counts : TernarySearchTree

/-- Embeds `LanguageModel.__init__` (language_model.py lines 31-71):
absent or falsy `vocabulary` and `targets` become `ContainsEverything`;
the count store is a fresh tree carrying the splitchar. -/
def mkLM (n : Nat) (boundary : List Char) (sc : Char)
    (vocabulary targets : Option (List Char → Bool))
    (mustContain : Option (List Char → Bool)) : LanguageModel :=
  { n := n, boundary := boundary, splitchar := sc,
    vocabulary := vocabulary.getD ContainsEverything,
    targets := targets.getD ContainsEverything,
    mustContain := mustContain,
    counts := emptyTST (some sc) }

/-- Embeds `LanguageModel._train(n_gram)` (language_model.py lines
280-294): truncate at the first out-of-vocabulary token, discard the
event when a configured `must_contain` matches no surviving token, and
otherwise insert the splitchar-joined key into the tree. -/
def trainOne (m : LanguageModel) (g : List (List Char)) : LanguageModel :=
  let g' := g.takeWhile m.vocabulary
  match m.mustContain with
  | some p =>
      if g'.any p then
        { m with counts := m.counts.insert (joinKey m.splitchar g') }
      else m
  | none => { m with counts := m.counts.insert (joinKey m.splitchar g') }

/-- Embeds appending to the training window `deque(maxlen=n)`: append,
then keep only the last `n` elements. -/
def pushWindow (n : Nat) (w : List (List Char)) (x : List Char) :
    List (List Char) :=
  (w ++ [x]).drop ((w ++ [x]).length - n)

/-- Python `list(n_gram)[-length:]`: the last `length` window elements. -/
def lastTokens (w : List (List Char)) (k : Nat) : List (List Char) :=
  w.drop (w.length - k)

/-- The `for length in range(...)` flush loops of `LanguageModel.train`:
train on the window suffixes of the given lengths, in order. -/
def flushSuffixes (m : LanguageModel) (w : List (List Char))
    (lens : List Nat) : LanguageModel :=
  lens.foldl (fun m k => trainOne m (lastTokens w k)) m

/-- One iteration of the `for element in sequence` loop of
`LanguageModel.train` (language_model.py lines 92-110): a boundary token
flushes the suffixes (lengths `range(1, len + not_trained)`) and clears
the window; any other token is appended, and when the window reaches
length `n` the model trains on the full window, or on the window minus
its last token when that token fails the `targets` test. -/
def trainStep (acc : LanguageModel × List (List Char)) (tok : List Char) :
    LanguageModel × List (List Char) :=
  let (m, w) := acc
  if tok = m.boundary then
    let nt : Nat := if w.length < m.n then 1 else 0
    (flushSuffixes m w (List.range' 1 (w.length + nt - 1)), [])
  else
    let w' := pushWindow m.n w tok
    if w'.length = m.n then
      if !(m.targets tok) then (trainOne m w'.dropLast, w')
      else (trainOne m w', w')
    else (m, w')

/-- Embeds `LanguageModel.train(sequence)` (language_model.py lines
73-118): the element loop, then the trailing flush on the final window,
dropping its first element when the full window was already trained. -/
def train (m : LanguageModel) (seq : List (List Char)) : LanguageModel :=
  match seq.foldl trainStep (m, []) with
  | (m', w) =>
      let w' := if w.length = m'.n then w.drop 1 else w
      flushSuffixes m' w' (List.range' 1 w'.length)

/-- Embeds `LanguageModel.frequency(n_gram)` (language_model.py lines
241-255): join with the splitchar and delegate to the tree. -/
def lmFrequency (m : LanguageModel) (g : List (List Char)) : Nat :=
  m.counts.frequency (joinKey m.splitchar g)

/-- Embeds `LanguageModel._probability(n_gram)` (language_model.py lines
296-306) for a non-empty n-gram: 0 when the n-gram's frequency is 0 (the
history's frequency is then never read), otherwise the ratio of the
n-gram's frequency to the history's (`*preceding, target = n_gram`).
Python floats are embedded as rationals; on an empty n-gram with nonzero
total the source raises instead of returning. -/
def lmProbability (m : LanguageModel) (g : List (List Char)) : ℚ :=
  let f := lmFrequency m g
  if f = 0 then 0
  else (f : ℚ) / (lmFrequency m g.dropLast : ℚ)

/-- Embeds `LanguageModel.insert(ngram, frequency, is_string=True,
subsequences)` (language_model.py lines 142-166) with a string key,
delegating to the weighted tree insert (modelled from the spec). -/
def lmInsert (m : LanguageModel) (key : List Char) (w : Nat)
    (subs : Bool) : LanguageModel :=
  { m with counts := m.counts.insertW key w subs }

/-- Embeds `LanguageModel.insert` with `is_string=False`: the token
sequence is joined with the splitchar first. -/
def lmInsertTokens (m : LanguageModel) (g : List (List Char)) (w : Nat)
    (subs : Bool) : LanguageModel :=
  lmInsert m (joinKey m.splitchar g) w subs

/-- Embeds `LanguageModel.insert_sequence(counts, is_string=True,
subsequences)` (language_model.py lines 120-140). -/
def lmInsertSequence (m : LanguageModel) (counts : List (List Char × Nat))
    (subs : Bool) : LanguageModel :=
  counts.foldl (fun m p => lmInsert m p.1 p.2 subs) m

/-! ### The event trace of training -/

/-- The event trace of one `train` loop iteration: the same control flow
as `trainStep`, but accumulating the windows passed to `_train` instead
of mutating the model (the window evolution never depends on the
counts). -/
def stepEvents (n : Nat) (b : List Char) (tg : List Char → Bool)
    (acc : List (List (List Char)) × List (List Char)) (tok : List Char) :
    List (List (List Char)) × List (List Char) :=
  let (es, w) := acc
  if tok = b then
    let nt : Nat := if w.length < n then 1 else 0
    (es ++ (List.range' 1 (w.length + nt - 1)).map (lastTokens w), [])
  else
    let w' := pushWindow n w tok
    if w'.length = n then
      if !(tg tok) then (es ++ [w'.dropLast], w')
      else (es ++ [w'], w')
    else (es, w')

/-- The windows `train` passes to `_train`, starting from window `w0`. -/
def trainEventsFrom (n : Nat) (b : List Char) (tg : List Char → Bool)
    (w0 : List (List Char)) (seq : List (List Char)) :
    List (List (List Char)) :=
  match seq.foldl (stepEvents n b tg) ([], w0) with
  | (es, w) =>
      let w' := if w.length = n then w.drop 1 else w
      es ++ (List.range' 1 w'.length).map (lastTokens w')

/-- The windows `train` passes to `_train` over a full input sequence. -/
def trainEvents (n : Nat) (b : List Char) (tg : List Char → Bool)
    (seq : List (List Char)) : List (List (List Char)) :=
  trainEventsFrom n b tg [] seq

/-- The keys `_train` actually inserts for a list of events: the
splitchar-joined vocabulary-truncations, minus events discarded by
`must_contain`. -/
def eventKeys (sc : Char) (vocab : List Char → Bool)
    (mc : Option (List Char → Bool)) (es : List (List (List Char))) :
    List (List Char) :=
  es.filterMap (fun g =>
    let g' := g.takeWhile vocab
    match mc with
    | some p => if g'.any p then some (joinKey sc g') else none
    | none => some (joinKey sc g'))

/-- The keys a whole `train` call inserts. -/
def trainKeys (m : LanguageModel) (seq : List (List Char)) :
    List (List Char) :=
  eventKeys m.splitchar m.vocabulary m.mustContain
    (trainEvents m.n m.boundary m.targets seq)

/-! ### Boundary segments (specification device for C6) -/

/-- Split a list into its maximal boundary-free segments (keeping empty
segments), so that "an event lies within one boundary-free segment" can
be stated. -/
def segsOn {α : Type} [DecidableEq α] (b : α) : List α → List (List α)
  | [] => [[]]
  | x :: xs =>
      if x = b then [] :: segsOn b xs
      else
        match segsOn b xs with
        | [] => [[x]]
        | s :: ss => (x :: s) :: ss

/-! ### Median-split insertion order (`insertion_order.py`) -/

/-- `np.searchsorted(array, v)` (default side `left`) on a sorted array:
the number of elements strictly below `v`. -/
def searchsortedL (a : List ℚ) (v : ℚ) : Nat :=
  (a.takeWhile (fun x => decide (x < v))).length

/-- Python indexing `a[i]`, with one negative-index wraparound; an
out-of-range read gives 0 where Python would raise. -/
def pyGet (a : List ℚ) (i : Int) : ℚ :=
  if 0 ≤ i then a.getD i.toNat 0
  else a.getD (a.length - (-i).toNat) 0

/-- Python slicing `a[:i]`. -/
def pySliceTo (a : List ℚ) (i : Int) : List ℚ :=
  if 0 ≤ i then a.take i.toNat else a.take (a.length - (-i).toNat)

/-- Python slicing `a[i:]`. -/
def pySliceFrom (a : List ℚ) (i : Int) : List ℚ :=
  if 0 ≤ i then a.drop i.toNat else a.drop (a.length - (-i).toNat)

/-- Embeds `median_element(array)` (insertion_order.py lines 4-19); numpy
float arrays are embedded as lists of rationals. -/
def medianElement (a : List ℚ) : Int :=
  let mid := (pyGet a 0 + pyGet a (-1)) / 2
  let mi : Nat := searchsortedL a mid
  if pyGet a (mi : Int) - mid ≥ mid - pyGet a ((mi : Int) - 1) then
    (mi : Int) - 1
  else (mi : Int)

/-- Embeds the generator `recursive_median(array)` (insertion_order.py
lines 22-55), run to a list.  The source recursion is not structurally
bounded — it diverges on some inputs (see C8's counterexample) — so
`fuel` bounds the depth, truncating branches beyond it; any fuel at
least the array length suffices on inputs where the source terminates. -/
def recursiveMedian : Nat → List ℚ → List Int
  | 0, _ => []
  | fuel + 1, a =>
      if a.length = 3 then [1, 0, 2]
      else if a.length = 2 then [0, 1]
      else if a.length = 1 then [0]
      else
        let m := medianElement a
        m :: (recursiveMedian fuel (pySliceTo a m) ++
          (recursiveMedian fuel (pySliceFrom a (m + 1))).map
            (fun i => m + i + 1))

/-- `np.cumsum`. -/
def cumsum : List ℚ → List ℚ
  | [] => []
  | x :: xs => x :: (cumsum xs).map (fun y => x + y)

/-- Python indexing into the sorted key list, with negative wraparound;
keys (Python strings) are `List Char` as everywhere in this file. -/
def pyGetKey (a : List (List Char)) (i : Int) : List Char :=
  if 0 ≤ i then a.getD i.toNat [] else a.getD (a.length - (-i).toNat) []

/-- Association-list lookup, embedding `frequencies[string]` for a
counter with distinct keys. -/
def tableLookup (tbl : List (List Char × ℚ)) (s : List Char) : ℚ :=
  ((tbl.find? (fun p => p.1 == s)).map Prod.snd).getD 0

/-- Embeds `median_split_vocabulary(frequencies)` (insertion_order.py
lines 58-86): sort the keys, normalize the counts into cumulative
probabilities, and map the recursive median-split indices back to keys.
Python's `sorted` is embedded as insertion sort over the lexicographic
order (stable, ascending); the lazy generator is run to a list under
`fuel`. -/
def medianSplitVocabulary (fuel : Nat) (tbl : List (List Char × ℚ)) :
    List (List Char) :=
  let strings :=
    List.insertionSort (fun x y : List Char => x ≤ y) (tbl.map Prod.fst)
  let freqs := strings.map (tableLookup tbl)
  let probs := freqs.map (fun f => f / freqs.sum)
  let cum := cumsum probs
  (recursiveMedian fuel cum).map (pyGetKey strings)

/-! ### Proofs -/

theorem nodeSearch_nil_tree (s : List Char) : nodeSearch s .nil = .nil := by
  cases s <;> rfl

theorem countAt_nil (s : List Char) : countAt s .nil = 0 := by
  simp [countAt, nodeSearch_nil_tree]

theorem countAt_node_last (c : Char) (k : Nat) (l e r : Node) :
    countAt [c] (.node c k l e r) = k := by
  simp [countAt, nodeSearch]

theorem countAt_node_eq_cons (c : Char) (k : Nat) (l e r : Node)
    (s : List Char) (hs : s ≠ []) :
    countAt (c :: s) (.node c k l e r) = countAt s e := by
  obtain ⟨a, s', rfl⟩ := List.exists_cons_of_ne_nil hs
  simp [countAt, nodeSearch]

theorem countAt_node_lt (a c : Char) (k : Nat) (l e r : Node)
    (s : List Char) (h : a < c) :
    countAt (a :: s) (.node c k l e r) = countAt (a :: s) l := by
  have hne : ¬ a = c := ne_of_lt h
  simp [countAt, nodeSearch, hne, h]

theorem countAt_node_gt (a c : Char) (k : Nat) (l e r : Node)
    (s : List Char) (h1 : ¬ a = c) (h2 : ¬ a < c) :
    countAt (a :: s) (.node c k l e r) = countAt (a :: s) r := by
  simp [countAt, nodeSearch, h1, h2]

theorem bumped_nil_left (sc : Option Char) (subs : Bool) (s : List Char)
    (hs : s ≠ []) : bumped sc subs [] s = false := by
  obtain ⟨a, s', rfl⟩ := List.exists_cons_of_ne_nil hs
  cases sc <;> simp [bumped, List.isPrefixOf]

theorem bumped_cons_cons (sc : Option Char) (subs : Bool) (a : Char)
    (x s : List Char) : bumped sc subs (a :: x) (a :: s) = bumped sc subs x s := by
  cases sc <;> simp [bumped, List.isPrefixOf]

theorem bumped_cons_ne (sc : Option Char) (subs : Bool) (a a' : Char)
    (x s : List Char) (h : ¬ a = a') :
    bumped sc subs (a :: x) (a' :: s) = false := by
  have h' : ¬ a' = a := fun hh => h hh.symm
  cases sc <;> simp [bumped, List.isPrefixOf, h, h']

theorem bumped_single_long (sc : Option Char) (subs : Bool) (a : Char)
    (s : List Char) (hs : s ≠ []) : bumped sc subs [a] (a :: s) = false := by
  obtain ⟨b, s', rfl⟩ := List.exists_cons_of_ne_nil hs
  cases sc <;> simp [bumped, List.isPrefixOf]

theorem bumped_single_eq (sc : Option Char) (subs : Bool) (a r0 : Char)
    (xr : List Char) :
    bumped sc subs (a :: r0 :: xr) [a] = (subs && splitEq sc r0) := by
  cases sc with
  | none => simp [bumped, splitEq]
  | some c =>
      by_cases h : r0 = c
      · subst h; simp [bumped, splitEq, List.isPrefixOf]
      · have h' : ¬ c = r0 := fun hh => h hh.symm
        have e1 : (c == r0) = false := by simp [h']
        have e2 : (r0 == c) = false := by simp [h]
        simp [bumped, splitEq, List.isPrefixOf, e1, e2]

/-- One weighted insert of `x` changes the count at the node `s` ends in
by `w` exactly when `bumped` holds, and leaves it unchanged otherwise. -/
theorem countAt_freshW (sc : Option Char) (w : Nat) (subs : Bool) :
    ∀ x s : List Char, s ≠ [] →
      countAt s (freshW sc w subs x) = w * (bumped sc subs x s).toNat := by
  intro x
  induction x with
  | nil =>
      intro s hs
      simp [freshW, countAt_nil, bumped_nil_left sc subs s hs]
  | cons ch xr ih =>
      intro s hs
      obtain ⟨a, s', rfl⟩ := List.exists_cons_of_ne_nil hs
      by_cases hac : ch = a
      · subst hac
        cases xr with
        | nil =>
            cases s' with
            | nil =>
                rw [show freshW sc w subs [ch] = .node ch w .nil .nil .nil from rfl,
                  countAt_node_last]
                simp [bumped]
            | cons b s'' =>
                rw [freshW, countAt_node_eq_cons _ _ _ _ _ _ (by simp),
                  countAt_nil, bumped_single_long]
                · simp
                · simp
        | cons r0 xr' =>
            cases s' with
            | nil =>
                rw [freshW, countAt_node_last, bumped_single_eq]
                cases subs <;> cases h0 : splitEq sc r0 <;> simp [h0]
            | cons b s'' =>
                rw [freshW, countAt_node_eq_cons _ _ _ _ _ _ (by simp),
                  bumped_cons_cons]
                exact ih (b :: s'') (by simp)
      · have hne : ¬ a = ch := fun h => hac h.symm
        have hb0 : bumped sc subs (ch :: xr) (a :: s') = false :=
          bumped_cons_ne sc subs ch a xr s' hac
        cases xr with
        | nil =>
            by_cases hlt : a < ch
            · rw [freshW, countAt_node_lt a ch _ _ _ _ _ hlt, countAt_nil, hb0]
              simp
            · rw [freshW, countAt_node_gt a ch _ _ _ _ _ hne hlt, countAt_nil, hb0]
              simp
        | cons r0 xr' =>
            by_cases hlt : a < ch
            · rw [freshW, countAt_node_lt a ch _ _ _ _ _ hlt, countAt_nil, hb0]
              simp
            · rw [freshW, countAt_node_gt a ch _ _ _ _ _ hne hlt, countAt_nil, hb0]
              simp
theorem nodeInsertW_nil_key (sc : Option Char) (w : Nat) (subs : Bool)
    (t : Node) : nodeInsertW sc w subs [] t = t := by
  cases t <;> rfl

theorem nodeInsertW_nil_tree (sc : Option Char) (w : Nat) (subs : Bool)
    (s : List Char) : nodeInsertW sc w subs s .nil = freshW sc w subs s := by
  cases s <;> rfl

theorem nodeInsertW_last (sc : Option Char) (w : Nat) (subs : Bool)
    (c : Char) (k : Nat) (l e r : Node) :
    nodeInsertW sc w subs [c] (.node c k l e r) = .node c (k + w) l e r := by
  simp [nodeInsertW]

theorem nodeInsertW_eq_cons (sc : Option Char) (w : Nat) (subs : Bool)
    (c : Char) (k : Nat) (l e r : Node) (r0 : Char) (xr : List Char) :
    nodeInsertW sc w subs (c :: r0 :: xr) (.node c k l e r) =
      .node c (if subs && splitEq sc r0 then k + w else k) l
        (nodeInsertW sc w subs (r0 :: xr) e) r := by
  simp [nodeInsertW]

theorem nodeInsertW_lt (sc : Option Char) (w : Nat) (subs : Bool)
    (ch c : Char) (k : Nat) (l e r : Node) (xr : List Char) (h : ch < c) :
    nodeInsertW sc w subs (ch :: xr) (.node c k l e r) =
      .node c k (nodeInsertW sc w subs (ch :: xr) l) e r := by
  have hne : ¬ ch = c := ne_of_lt h
  cases xr <;> simp [nodeInsertW, hne, h]

theorem nodeInsertW_gt (sc : Option Char) (w : Nat) (subs : Bool)
    (ch c : Char) (k : Nat) (l e r : Node) (xr : List Char)
    (h1 : ¬ ch = c) (h2 : ¬ ch < c) :
    nodeInsertW sc w subs (ch :: xr) (.node c k l e r) =
      .node c k l e (nodeInsertW sc w subs (ch :: xr) r) := by
  cases xr <;> simp [nodeInsertW, h1, h2]

/-- Core counting lemma for the weighted insert: inserting `x` with weight
`w` adds `w` to the count at the node a non-empty `s` ends in exactly when
`bumped sc subs x s` holds, and changes no other count. -/
theorem countAt_nodeInsertW (sc : Option Char) (w : Nat) (subs : Bool) :
    ∀ (t : Node) (x s : List Char), s ≠ [] →
      countAt s (nodeInsertW sc w subs x t) =
        countAt s t + w * (bumped sc subs x s).toNat := by
  intro t
  induction t with
  | nil =>
      intro x s hs
      cases x with
      | nil =>
          rw [nodeInsertW_nil_key, bumped_nil_left sc subs s hs]
          simp
      | cons ch xr =>
          rw [nodeInsertW_nil_tree, countAt_freshW sc w subs (ch :: xr) s hs,
            countAt_nil]
          simp
  | node c k l e r ihl ihe ihr =>
      intro x s hs
      cases x with
      | nil =>
          rw [nodeInsertW_nil_key, bumped_nil_left sc subs s hs]
          simp
      | cons ch xr =>
          obtain ⟨a, s', rfl⟩ := List.exists_cons_of_ne_nil hs
          by_cases hcc : ch = c
          · subst hcc
            cases xr with
            | nil =>
                rw [nodeInsertW_last]
                by_cases has : a = ch
                · subst has
                  cases s' with
                  | nil =>
                      rw [countAt_node_last, countAt_node_last]
                      have hb : bumped sc subs [a] [a] = true := by
                        simp [bumped]
                      rw [hb]
                      simp
                  | cons b s'' =>
                      rw [countAt_node_eq_cons _ _ _ _ _ _ (by simp),
                        countAt_node_eq_cons _ _ _ _ _ _ (by simp),
                        bumped_single_long sc subs a (b :: s'') (by simp)]
                      simp
                · have hne : ¬ ch = a := fun h => has h.symm
                  have hb0 : bumped sc subs [ch] (a :: s') = false :=
                    bumped_cons_ne sc subs ch a [] s' hne
                  rw [hb0]
                  by_cases hlt : a < ch
                  · rw [countAt_node_lt _ _ _ _ _ _ _ hlt,
                      countAt_node_lt _ _ _ _ _ _ _ hlt]
                    simp
                  · rw [countAt_node_gt _ _ _ _ _ _ _ has hlt,
                      countAt_node_gt _ _ _ _ _ _ _ has hlt]
                    simp
            | cons r0 xr' =>
                rw [nodeInsertW_eq_cons]
                by_cases has : a = ch
                · subst has
                  cases s' with
                  | nil =>
                      rw [countAt_node_last, countAt_node_last,
                        bumped_single_eq]
                      cases subs <;> cases h0 : splitEq sc r0 <;> simp [h0]
                  | cons b s'' =>
                      rw [countAt_node_eq_cons _ _ _ _ _ _ (by simp),
                        countAt_node_eq_cons _ _ _ _ _ _ (by simp),
                        bumped_cons_cons]
                      exact ihe (r0 :: xr') (b :: s'') (by simp)
                · have hne : ¬ ch = a := fun h => has h.symm
                  have hb0 : bumped sc subs (ch :: r0 :: xr') (a :: s') = false :=
                    bumped_cons_ne sc subs ch a (r0 :: xr') s' hne
                  rw [hb0]
                  by_cases hlt : a < ch
                  · rw [countAt_node_lt _ _ _ _ _ _ _ hlt,
                      countAt_node_lt _ _ _ _ _ _ _ hlt]
                    simp
                  · rw [countAt_node_gt _ _ _ _ _ _ _ has hlt,
                      countAt_node_gt _ _ _ _ _ _ _ has hlt]
                    simp
          · by_cases hlt : ch < c
            · rw [nodeInsertW_lt _ _ _ _ _ _ _ _ _ _ hlt]
              by_cases hasc : a = c
              · subst hasc
                have hne : ¬ ch = a := hcc
                have hb0 : bumped sc subs (ch :: xr) (a :: s') = false :=
                  bumped_cons_ne sc subs ch a xr s' hne
                rw [hb0]
                cases s' with
                | nil => rw [countAt_node_last, countAt_node_last]; simp
                | cons b s'' =>
                    rw [countAt_node_eq_cons _ _ _ _ _ _ (by simp),
                      countAt_node_eq_cons _ _ _ _ _ _ (by simp)]
                    simp
              · by_cases halt : a < c
                · rw [countAt_node_lt _ _ _ _ _ _ _ halt,
                    countAt_node_lt _ _ _ _ _ _ _ halt]
                  exact ihl (ch :: xr) (a :: s') (by simp)
                · have hca : c < a :=
                    lt_of_le_of_ne (not_lt.mp halt) (fun h => hasc h.symm)
                  have hne : ¬ ch = a := ne_of_lt (lt_trans hlt hca)
                  have hb0 : bumped sc subs (ch :: xr) (a :: s') = false :=
                    bumped_cons_ne sc subs ch a xr s' hne
                  rw [hb0, countAt_node_gt _ _ _ _ _ _ _ hasc halt,
                    countAt_node_gt _ _ _ _ _ _ _ hasc halt]
                  simp
            · have hclt : c < ch :=
                lt_of_le_of_ne (not_lt.mp hlt) (fun h => hcc h.symm)
              rw [nodeInsertW_gt _ _ _ _ _ _ _ _ _ _ hcc hlt]
              by_cases hasc : a = c
              · subst hasc
                have hne : ¬ ch = a := hcc
                have hb0 : bumped sc subs (ch :: xr) (a :: s') = false :=
                  bumped_cons_ne sc subs ch a xr s' hne
                rw [hb0]
                cases s' with
                | nil => rw [countAt_node_last, countAt_node_last]; simp
                | cons b s'' =>
                    rw [countAt_node_eq_cons _ _ _ _ _ _ (by simp),
                      countAt_node_eq_cons _ _ _ _ _ _ (by simp)]
                    simp
              · by_cases halt : a < c
                · have hne : ¬ ch = a := by
                    intro h
                    exact absurd (h ▸ hclt) (not_lt.mpr (le_of_lt halt))
                  have hb0 : bumped sc subs (ch :: xr) (a :: s') = false :=
                    bumped_cons_ne sc subs ch a xr s' hne
                  rw [hb0, countAt_node_lt _ _ _ _ _ _ _ halt,
                    countAt_node_lt _ _ _ _ _ _ _ halt]
                  simp
                · rw [countAt_node_gt _ _ _ _ _ _ _ hasc halt,
                    countAt_node_gt _ _ _ _ _ _ _ hasc halt]
                  exact ihr (ch :: xr) (a :: s') (by simp)
/-- The source's single insert is the weighted insert at weight 1 with
subsequence counting on. -/
theorem fresh_eq_freshW (sc : Option Char) :
    ∀ s : List Char, fresh sc s = freshW sc 1 true s := by
  intro s
  induction s with
  | nil => rfl
  | cons ch xr ih =>
      cases xr with
      | nil => rfl
      | cons r0 xr' =>
          show Node.node ch (if splitEq sc r0 then 1 else 0) .nil (fresh sc (r0 :: xr')) .nil =
            Node.node ch (if true && splitEq sc r0 then 1 else 0) .nil (freshW sc 1 true (r0 :: xr')) .nil
          simp [ih]

theorem nodeInsert_eq_nodeInsertW (sc : Option Char) :
    ∀ (t : Node) (s : List Char),
      nodeInsert sc s t = nodeInsertW sc 1 true s t := by
  intro t
  induction t with
  | nil =>
      intro s
      cases s with
      | nil => rfl
      | cons ch xr =>
          rw [nodeInsertW_nil_tree]
          show fresh sc (ch :: xr) = _
          exact fresh_eq_freshW sc (ch :: xr)
  | node c k l e r ihl ihe ihr =>
      intro s
      cases s with
      | nil => rfl
      | cons ch xr =>
          by_cases hcc : ch = c
          · subst hcc
            cases xr with
            | nil => simp [nodeInsert, nodeInsertW]
            | cons r0 xr' => simp [nodeInsert, nodeInsertW, ihe]
          · by_cases hlt : ch < c
            · cases xr <;> simp [nodeInsert, nodeInsertW, hcc, hlt, ihl]
            · cases xr <;> simp [nodeInsert, nodeInsertW, hcc, hlt, ihr]

/-- `frequency` of a non-empty string is the count at the node it ends in. -/
theorem frequency_ne_nil (t : TernarySearchTree) (s : List Char) (hs : s ≠ []) :
    t.frequency s = countAt s t.root := by
  simp [TernarySearchTree.frequency, countAt, hs]

theorem frequency_nil (t : TernarySearchTree) : t.frequency [] = t.total := by
  simp [TernarySearchTree.frequency]

/-- Frequency evolution under the source's single insert. -/
theorem frequency_insert (t : TernarySearchTree) (x s : List Char)
    (hs : s ≠ []) :
    (t.insert x).frequency s =
      t.frequency s + (bumped t.splitchar true x s).toNat := by
  rw [frequency_ne_nil _ _ hs, frequency_ne_nil _ _ hs]
  show countAt s (nodeInsert t.splitchar x t.root) = _
  rw [nodeInsert_eq_nodeInsertW,
    countAt_nodeInsertW t.splitchar 1 true t.root x s hs]
  simp
theorem insert_splitchar (t : TernarySearchTree) (x : List Char) :
    (t.insert x).splitchar = t.splitchar := rfl

theorem insert_total (t : TernarySearchTree) (x : List Char) :
    (t.insert x).total = t.total + 1 := rfl

/-- Frequency after inserting a list of strings: each insert of `x`
contributes one to the count of a non-empty `s` exactly when `bumped`
holds. -/
theorem frequency_foldl_insert :
    ∀ (L : List (List Char)) (t : TernarySearchTree) (s : List Char),
      s ≠ [] →
      (L.foldl TernarySearchTree.insert t).frequency s =
        t.frequency s + L.countP (fun x => bumped t.splitchar true x s) := by
  intro L
  induction L with
  | nil => intro t s hs; simp
  | cons x L ih =>
      intro t s hs
      rw [List.foldl_cons, ih (t.insert x) s hs, List.countP_cons]
      rw [insert_splitchar, frequency_insert t x s hs]
      cases hb : bumped t.splitchar true x s <;> simp [hb] <;> omega

theorem total_foldl_insert :
    ∀ (L : List (List Char)) (t : TernarySearchTree),
      (L.foldl TernarySearchTree.insert t).total = t.total + L.length := by
  intro L
  induction L with
  | nil => intro t; simp
  | cons x L ih =>
      intro t
      rw [List.foldl_cons, ih, insert_total]
      simp only [List.length_cons]
      omega

theorem frequency_build (sc : Option Char) (L : List (List Char))
    (s : List Char) (hs : s ≠ []) :
    (buildTST sc L).frequency s = L.countP (fun x => bumped sc true x s) := by
  rw [buildTST, frequency_foldl_insert L (emptyTST sc) s hs]
  simp [TernarySearchTree.frequency, emptyTST, hs, nodeSearch_nil_tree]

theorem frequency_build_nil (sc : Option Char) (L : List (List Char)) :
    (buildTST sc L).frequency [] = L.length := by
  rw [frequency_nil, buildTST, total_foldl_insert]
  simp [emptyTST]

/-- If one insert bumps the count of a key extended past a splitchar, it
also bumps the count of the part before that splitchar. -/
theorem bumped_drop_tail (c : Char) (x p tl : List Char)
    (h : bumped (some c) true x (p ++ c :: tl) = true) :
    bumped (some c) true x p = true := by
  have hpre : (p ++ [c]) <+: (p ++ c :: tl) := by
    refine ⟨tl, ?_⟩
    simp
  simp only [bumped, Bool.true_and, Bool.or_eq_true, beq_iff_eq] at h ⊢
  rcases h with h | h
  · right
    rw [List.isPrefixOf_iff_prefix]
    exact h ▸ hpre
  · right
    rw [List.isPrefixOf_iff_prefix] at h ⊢
    exact hpre.trans ((List.prefix_append _ _).trans h)

/-- In any tree built by single inserts, extending a key with the
splitchar and more characters can only lower its frequency. -/
theorem frequency_build_mono (c : Char) (L : List (List Char))
    (p tl : List Char) :
    (buildTST (some c) L).frequency (p ++ c :: tl) ≤
      (buildTST (some c) L).frequency p := by
  by_cases hp : p = []
  · subst hp
    rw [frequency_build (some c) L _ (by simp), frequency_build_nil]
    exact List.countP_le_length _
  · rw [frequency_build (some c) L _ (by simp), frequency_build (some c) L p hp]
    exact List.countP_mono_left fun x _ hx => bumped_drop_tail c x p tl hx

theorem joinKey_append_last (sc : Char) :
    ∀ (ts : List (List Char)) (a : List Char), ts ≠ [] →
      joinKey sc (ts ++ [a]) = joinKey sc ts ++ sc :: a := by
  intro ts
  induction ts with
  | nil => intro a h; exact absurd rfl h
  | cons t ts ih =>
      intro a _
      cases ts with
      | nil => rfl
      | cons t' ts' =>
          show t ++ sc :: joinKey sc ((t' :: ts') ++ [a]) = _
          rw [ih a (by simp)]
          simp [joinKey]

/-- Weighted insert adds its weight to the inserted key's frequency (the
empty key reads the total, which also grows by the weight). -/
theorem frequency_insertW_self (t : TernarySearchTree) (x : List Char)
    (w : Nat) (subs : Bool) :
    (t.insertW x w subs).frequency x = t.frequency x + w := by
  by_cases hx : x = []
  · subst hx
    rw [frequency_nil, frequency_nil]
    rfl
  · rw [frequency_ne_nil _ _ hx, frequency_ne_nil _ _ hx]
    show countAt x (nodeInsertW t.splitchar w subs x t.root) = _
    rw [countAt_nodeInsertW _ _ _ _ _ _ hx]
    have hb : bumped t.splitchar subs x x = true := by simp [bumped]
    rw [hb]
    simp
theorem topChars_freshW (sc : Option Char) (w : Nat) (subs : Bool)
    (ch : Char) (xr : List Char) :
    topChars (freshW sc w subs (ch :: xr)) = [ch] := by
  cases xr <;> simp [freshW, topChars]

theorem WF_freshW (sc : Option Char) (w : Nat) (subs : Bool) :
    ∀ s : List Char, WF (freshW sc w subs s) := by
  intro s
  induction s with
  | nil => trivial
  | cons ch xr ih =>
      cases xr with
      | nil => simp [freshW, WF, topChars]
      | cons r0 xr' =>
          refine ⟨by simp [topChars], by simp [topChars], trivial, ih, trivial⟩

theorem topChars_nodeInsertW (sc : Option Char) (w : Nat) (subs : Bool) :
    ∀ (t : Node) (ch : Char) (xr : List Char) (a : Char),
      a ∈ topChars (nodeInsertW sc w subs (ch :: xr) t) →
        a = ch ∨ a ∈ topChars t := by
  intro t
  induction t with
  | nil =>
      intro ch xr a ha
      rw [nodeInsertW_nil_tree, topChars_freshW] at ha
      left
      simpa using ha
  | node c k l e r ihl ihe ihr =>
      intro ch xr a ha
      by_cases hcc : ch = c
      · subst hcc
        cases xr with
        | nil =>
            rw [nodeInsertW_last] at ha
            right
            simpa [topChars] using ha
        | cons r0 xr' =>
            rw [nodeInsertW_eq_cons] at ha
            right
            simpa [topChars] using ha
      · by_cases hlt : ch < c
        · rw [nodeInsertW_lt _ _ _ _ _ _ _ _ _ _ hlt] at ha
          simp only [topChars, List.mem_append, List.mem_singleton] at ha ⊢
          rcases ha with ⟨h | h⟩ | h
          · rcases ihl ch xr a h with h' | h'
            · exact Or.inl h'
            · exact Or.inr (by simp [h'])
          · exact Or.inr (by simp [h])
          · exact Or.inr (by simp [h])
        · rw [nodeInsertW_gt _ _ _ _ _ _ _ _ _ _ hcc hlt] at ha
          simp only [topChars, List.mem_append, List.mem_singleton] at ha ⊢
          rcases ha with ⟨h | h⟩ | h
          · exact Or.inr (by simp [h])
          · exact Or.inr (by simp [h])
          · rcases ihr ch xr a h with h' | h'
            · exact Or.inl h'
            · exact Or.inr (by simp [h'])

theorem WF_nodeInsertW (sc : Option Char) (w : Nat) (subs : Bool) :
    ∀ (t : Node), WF t → ∀ (x : List Char), WF (nodeInsertW sc w subs x t) := by
  intro t
  induction t with
  | nil =>
      intro _ x
      cases x with
      | nil => trivial
      | cons ch xr =>
          rw [nodeInsertW_nil_tree]
          exact WF_freshW sc w subs (ch :: xr)
  | node c k l e r ihl ihe ihr =>
      intro hwf x
      obtain ⟨hl, hr, hwl, hwe, hwr⟩ := hwf
      cases x with
      | nil => rw [nodeInsertW_nil_key]; exact ⟨hl, hr, hwl, hwe, hwr⟩
      | cons ch xr =>
          by_cases hcc : ch = c
          · subst hcc
            cases xr with
            | nil =>
                rw [nodeInsertW_last]
                exact ⟨hl, hr, hwl, hwe, hwr⟩
            | cons r0 xr' =>
                rw [nodeInsertW_eq_cons]
                exact ⟨hl, hr, hwl, ihe hwe (r0 :: xr'), hwr⟩
          · by_cases hlt : ch < c
            · rw [nodeInsertW_lt _ _ _ _ _ _ _ _ _ _ hlt]
              refine ⟨?_, hr, ihl hwl (ch :: xr), hwe, hwr⟩
              intro a ha
              rcases topChars_nodeInsertW sc w subs l ch xr a ha with h | h
              · exact h ▸ hlt
              · exact hl a h
            · have hclt : c < ch :=
                lt_of_le_of_ne (not_lt.mp hlt) (fun h => hcc h.symm)
              rw [nodeInsertW_gt _ _ _ _ _ _ _ _ _ _ hcc hlt]
              refine ⟨hl, ?_, hwl, hwe, ihr hwr (ch :: xr)⟩
              intro a ha
              rcases topChars_nodeInsertW sc w subs r ch xr a ha with h | h
              · exact h ▸ hclt
              · exact hr a h

theorem WF_build (sc : Option Char) (L : List (List Char)) :
    WF (buildTST sc L).root := by
  suffices h : ∀ (L : List (List Char)) (t : TernarySearchTree), WF t.root →
      WF ((L.foldl TernarySearchTree.insert t).root) by
    exact h L (emptyTST sc) trivial
  intro L
  induction L with
  | nil => intro t ht; exact ht
  | cons x L ih =>
      intro t ht
      rw [List.foldl_cons]
      refine ih (t.insert x) ?_
      show WF (nodeInsert t.splitchar x t.root)
      rw [nodeInsert_eq_nodeInsertW]
      exact WF_nodeInsertW t.splitchar 1 true t.root ht x
/-- Every emitted completion is non-empty and starts with a character on
which a top-level search of this subtree can match. -/
theorem mem_nodeCompletions_shape :
    ∀ (t : Node) (p : List Char × Nat), p ∈ nodeCompletions t →
      ∃ a s', p.1 = a :: s' ∧ a ∈ topChars t := by
  intro t
  induction t with
  | nil => intro p hp; simp [nodeCompletions] at hp
  | node c k l e r ihl ihe ihr =>
      intro p hp
      simp only [nodeCompletions, List.mem_append] at hp
      rcases hp with ((h1 | h2) | h3) | h4
      · by_cases hk : k ≠ 0
        · rw [if_pos hk] at h1
          simp only [List.mem_singleton] at h1
          exact ⟨c, [], by simp [h1], by simp [topChars]⟩
        · rw [if_neg hk] at h1
          simp at h1
      · simp only [List.mem_map] at h2
        obtain ⟨q, _, rfl⟩ := h2
        exact ⟨c, q.1, rfl, by simp [topChars]⟩
      · obtain ⟨a, s', h, ha⟩ := ihl p h3
        exact ⟨a, s', h, by simp [topChars, ha]⟩
      · obtain ⟨a, s', h, ha⟩ := ihr p h4
        exact ⟨a, s', h, by simp [topChars, ha]⟩

/-- Soundness of `_completions` on well-formed trees: every emitted pair
is the count actually stored at its string, and that count is nonzero. -/
theorem nodeCompletions_sound :
    ∀ (t : Node), WF t → ∀ p ∈ nodeCompletions t,
      countAt p.1 t = p.2 ∧ p.2 ≠ 0 := by
  intro t
  induction t with
  | nil => intro _ p hp; simp [nodeCompletions] at hp
  | node c k l e r ihl ihe ihr =>
      intro hwf p hp
      obtain ⟨hl, hr, hwl, hwe, hwr⟩ := hwf
      simp only [nodeCompletions, List.mem_append] at hp
      rcases hp with ((h1 | h2) | h3) | h4
      · by_cases hk : k ≠ 0
        · rw [if_pos hk] at h1
          simp only [List.mem_singleton] at h1
          subst h1
          exact ⟨countAt_node_last c k l e r, hk⟩
        · rw [if_neg hk] at h1
          simp at h1
      · simp only [List.mem_map] at h2
        obtain ⟨q, hq, rfl⟩ := h2
        obtain ⟨a, s', hshape, _⟩ := mem_nodeCompletions_shape e q hq
        obtain ⟨hcnt, hnz⟩ := ihe hwe q hq
        refine ⟨?_, hnz⟩
        rw [countAt_node_eq_cons c k l e r q.1 (by simp [hshape])]
        exact hcnt
      · obtain ⟨a, s', hshape, ha⟩ := mem_nodeCompletions_shape l p h3
        obtain ⟨hcnt, hnz⟩ := ihl hwl p h3
        refine ⟨?_, hnz⟩
        rw [hshape]
        rw [countAt_node_lt a c k l e r s' (hl a ha)]
        rw [hshape] at hcnt
        exact hcnt
      · obtain ⟨a, s', hshape, ha⟩ := mem_nodeCompletions_shape r p h4
        obtain ⟨hcnt, hnz⟩ := ihr hwr p h4
        refine ⟨?_, hnz⟩
        rw [hshape]
        have hca : c < a := hr a ha
        rw [countAt_node_gt a c k l e r s'
          (fun h => absurd (h ▸ hca) (lt_irrefl a)) (not_lt.mpr (le_of_lt hca))]
        rw [hshape] at hcnt
        exact hcnt

/-- Completeness of `_completions`: every string with a nonzero stored
count is emitted with that count. -/
theorem nodeCompletions_complete :
    ∀ (t : Node) (s : List Char), s ≠ [] → countAt s t ≠ 0 →
      (s, countAt s t) ∈ nodeCompletions t := by
  intro t
  induction t with
  | nil => intro s hs hc; rw [countAt_nil] at hc; exact absurd rfl hc
  | node c k l e r ihl ihe ihr =>
      intro s hs hc
      obtain ⟨a, s', rfl⟩ := List.exists_cons_of_ne_nil hs
      simp only [nodeCompletions, List.mem_append]
      by_cases hac : a = c
      · subst hac
        cases s' with
        | nil =>
            rw [countAt_node_last] at hc ⊢
            refine Or.inl (Or.inl (Or.inl ?_))
            rw [if_pos hc]
            exact List.Mem.head _
        | cons b s'' =>
            rw [countAt_node_eq_cons a k l e r (b :: s'') (by simp)] at hc ⊢
            refine Or.inl (Or.inl (Or.inr ?_))
            simp only [List.mem_map]
            exact ⟨(b :: s'', countAt (b :: s'') e), ihe (b :: s'') (by simp) hc, rfl⟩
      · by_cases hlt : a < c
        · rw [countAt_node_lt a c k l e r s' hlt] at hc ⊢
          exact Or.inl (Or.inr (ihl (a :: s') (by simp) hc))
        · rw [countAt_node_gt a c k l e r s' hac hlt] at hc ⊢
          exact Or.inr (ihr (a :: s') (by simp) hc)
/-- Uniqueness of `_completions` on well-formed trees: no string is
emitted twice. -/
theorem nodeCompletions_nodup :
    ∀ (t : Node), WF t → ((nodeCompletions t).map Prod.fst).Nodup := by
  intro t
  induction t with
  | nil => intro _; simp [nodeCompletions]
  | node c k l e r ihl ihe ihr =>
      intro hwf
      obtain ⟨hl, hr, hwl, hwe, hwr⟩ := hwf
      simp only [nodeCompletions, List.map_append]
      have memA : ∀ s ∈ (if k ≠ 0 then [([c], k)] else []).map Prod.fst,
          s = [c] := by
        intro s hs
        by_cases hk : k ≠ 0 <;> simp [hk] at hs
        exact hs
      have memB : ∀ s ∈ ((nodeCompletions e).map
          (fun p => (c :: p.1, p.2))).map Prod.fst,
          ∃ q ∈ nodeCompletions e, s = c :: q.1 := by
        intro s hs
        simp only [List.map_map, List.mem_map] at hs
        obtain ⟨q, hq, rfl⟩ := hs
        exact ⟨q, hq, rfl⟩
      have memL : ∀ s ∈ (nodeCompletions l).map Prod.fst,
          ∃ a s', s = a :: s' ∧ a ∈ topChars l := by
        intro s hs
        simp only [List.mem_map] at hs
        obtain ⟨q, hq, rfl⟩ := hs
        exact mem_nodeCompletions_shape l q hq
      have memR : ∀ s ∈ (nodeCompletions r).map Prod.fst,
          ∃ a s', s = a :: s' ∧ a ∈ topChars r := by
        intro s hs
        simp only [List.mem_map] at hs
        obtain ⟨q, hq, rfl⟩ := hs
        exact mem_nodeCompletions_shape r q hq
      have ndA : ((if k ≠ 0 then [([c], k)] else []).map Prod.fst).Nodup := by
        by_cases hk : k ≠ 0 <;> simp [hk]
      have ndB : (((nodeCompletions e).map
          (fun p => (c :: p.1, p.2))).map Prod.fst).Nodup := by
        rw [List.map_map]
        have hcomp : (Prod.fst ∘ fun p : List Char × Nat => (c :: p.1, p.2)) =
            (fun s => c :: s) ∘ Prod.fst := rfl
        rw [hcomp, ← List.map_map]
        refine List.Nodup.map ?_ (ihe hwe)
        intro x y hxy
        simpa using hxy
      refine List.Nodup.append (List.Nodup.append
        (List.Nodup.append ndA ndB ?_) (ihl hwl) ?_) (ihr hwr) ?_
      · intro s hsA hsB
        obtain ⟨q, hq, rfl⟩ := memB s hsB
        obtain ⟨a, s', hsh, _⟩ := mem_nodeCompletions_shape e q hq
        have := memA _ hsA
        rw [hsh] at this
        simp at this
      · intro s hs1 hs2
        obtain ⟨a, s', rfl, ha⟩ := memL s hs2
        have hlt : a < c := hl a ha
        rcases List.mem_append.mp hs1 with hsA | hsB
        · have := memA _ hsA
          have : a = c := by
            have h' := this
            injection h'
          exact absurd (this ▸ hlt) (lt_irrefl c)
        · obtain ⟨q, _, heq⟩ := memB _ hsB
          have : a = c := by injection heq
          exact absurd (this ▸ hlt) (lt_irrefl c)
      · intro s hs1 hs2
        obtain ⟨a, s', rfl, ha⟩ := memR s hs2
        have hgt : c < a := hr a ha
        rcases List.mem_append.mp hs1 with hsAB | hsL
        · rcases List.mem_append.mp hsAB with hsA | hsB
          · have := memA _ hsA
            have : a = c := by
              have h' := this
              injection h'
            exact absurd (this ▸ hgt) (lt_irrefl a)
          · obtain ⟨q, _, heq⟩ := memB _ hsB
            have : a = c := by injection heq
            exact absurd (this ▸ hgt) (lt_irrefl a)
        · obtain ⟨a', s'', heq, ha'⟩ := memL _ hsL
          have haa : a' = a := by injection heq.symm
          have hlt : a' < c := hl a' ha'
          rw [haa] at hlt
          exact absurd (lt_trans hgt hlt)  (lt_irrefl c)
theorem nodeSearch_nil_key (t : Node) : nodeSearch [] t = t := by
  cases t <;> rfl

/-- `completions("")` enumerates from the root. -/
theorem completions_empty (t : TernarySearchTree) :
    t.completions [] = nodeCompletions t.root := by
  unfold TernarySearchTree.completions
  rw [nodeSearch_nil_key]
  cases t.root with
  | nil => rfl
  | node c k l e r => simp

theorem countP_congr_local {α : Type} (p q : α → Bool) :
    ∀ L : List α, (∀ a ∈ L, p a = q a) → L.countP p = L.countP q := by
  intro L
  induction L with
  | nil => intro _; rfl
  | cons x L ih =>
      intro h
      rw [List.countP_cons, List.countP_cons, h x (by simp),
        ih (fun a ha => h a (by simp [ha]))]

/-- When no inserted string contains the splitchar, an insert bumps only
the terminal node. -/
theorem bumped_no_splitchar (sc : Option Char) (x s : List Char)
    (h : ∀ c ∈ x, sc ≠ some c) :
    bumped sc true x s = (x == s) := by
  cases sc with
  | none => simp [bumped]
  | some c =>
      simp only [bumped, Bool.true_and]
      cases hp : (s ++ [c]).isPrefixOf x
      · simp
      · exfalso
        rw [List.isPrefixOf_iff_prefix] at hp
        exact h c (hp.subset (by simp)) rfl

/-- Counts in a tree built from splitchar-free strings are plain
multiplicities. -/
theorem countAt_build_count (sc : Option Char) (L : List (List Char))
    (hsc : ∀ x ∈ L, ∀ c ∈ x, sc ≠ some c) (s : List Char) (hs : s ≠ []) :
    countAt s (buildTST sc L).root = L.count s := by
  rw [← frequency_ne_nil _ _ hs, frequency_build sc L s hs]
  rw [countP_congr_local _ (fun x => x == s) L
    (fun x hx => bumped_no_splitchar sc x s (hsc x hx))]
  rfl

/-- C3 counterexample: with splitchar `#`, inserting the single key
`"a#b"` makes `completions("")` also enumerate `("a", 1)`, although `"a"`
was never inserted — the enumeration is not exactly the inserted keys. -/
theorem C3_counterexample :
    ((['a'], 1) ∈ (buildTST (some '#') [['a', '#', 'b']]).completions []) ∧
      (['a'] : List Char) ∉ [['a', '#', 'b']] := by decide

/-- C3 (amended): for insertions of non-empty keys that never contain the
splitchar (in particular whenever the splitchar is unset),
`completions("")` enumerates exactly the distinct inserted keys, each
exactly once, paired with the number of insertions of that key (the sum
of the weights, all weights being 1 in the source's `insert`). -/
theorem C3_completions_exactly_inserted_keys (sc : Option Char)
    (L : List (List Char)) (hne : ∀ x ∈ L, x ≠ [])
    (hsc : ∀ x ∈ L, ∀ c ∈ x, sc ≠ some c) :
    (∀ s k, ((s, k) ∈ (buildTST sc L).completions [] ↔
      (s ∈ L ∧ k = L.count s))) ∧
      (((buildTST sc L).completions []).map Prod.fst).Nodup := by
  have hwf := WF_build sc L
  constructor
  · intro s k
    rw [completions_empty]
    constructor
    · intro hmem
      obtain ⟨a, s', hsh, _⟩ :=
        mem_nodeCompletions_shape (buildTST sc L).root (s, k) hmem
      have hsne : s ≠ [] := by
        intro h
        rw [h] at hsh
        exact List.noConfusion hsh
      obtain ⟨hcnt, hnz⟩ :=
        nodeCompletions_sound (buildTST sc L).root hwf (s, k) hmem
      rw [countAt_build_count sc L hsc s hsne] at hcnt
      refine ⟨?_, hcnt.symm⟩
      have : 0 < L.count s := by omega
      exact List.count_pos_iff.mp this
    · rintro ⟨hmemL, rfl⟩
      have hsne := hne s hmemL
      have hcpos : L.count s ≠ 0 := by
        have := List.count_pos_iff.mpr hmemL
        omega
      have hcc : countAt s (buildTST sc L).root ≠ 0 := by
        rw [countAt_build_count sc L hsc s hsne]
        exact hcpos
      have := nodeCompletions_complete (buildTST sc L).root s hsne hcc
      rw [countAt_build_count sc L hsc s hsne] at this
      exact this
  · rw [completions_empty]
    exact nodeCompletions_nodup (buildTST sc L).root hwf

/-- Witness for C3 (amended) at a concrete input. -/
theorem C3_witness :
    ((['a','b'], 2) ∈
        (buildTST (some '#') [['a','b'], ['c'], ['a','b']]).completions [] ↔
      ((['a','b'] : List Char) ∈ [['a','b'], ['c'], ['a','b']] ∧
        2 = List.count ['a','b'] [['a','b'], ['c'], ['a','b']])) ∧
      ((((buildTST (some '#') [['a','b'], ['c'], ['a','b']]).completions
        []).map Prod.fst).Nodup) :=
  ⟨(C3_completions_exactly_inserted_keys (some '#')
      [['a','b'], ['c'], ['a','b']] (by decide) (by decide)).1 ['a','b'] 2,
    (C3_completions_exactly_inserted_keys (some '#')
      [['a','b'], ['c'], ['a','b']] (by decide) (by decide)).2⟩
/-- C5: in every tree built by inserting keys (subsequence counting is
built into the source's insert), the frequency of the separator-joined
prefix obtained by dropping a key's last token is at least the frequency
of the full key. -/
theorem C5_prefix_frequency_ge (sc : Char) (L : List (List Char))
    (ts : List (List Char)) (h2 : 2 ≤ ts.length) :
    (buildTST (some sc) L).frequency (joinKey sc ts) ≤
      (buildTST (some sc) L).frequency (joinKey sc ts.dropLast) := by
  have hne : ts ≠ [] := by
    intro h
    rw [h] at h2
    simp at h2
  have hdne : ts.dropLast ≠ [] := by
    intro h
    have hlen := congrArg List.length h
    rw [List.length_dropLast] at hlen
    simp at hlen
    omega
  have hts : ts = ts.dropLast ++ [ts.getLast hne] :=
    (List.dropLast_append_getLast hne).symm
  have hjoin : joinKey sc ts =
      joinKey sc ts.dropLast ++ sc :: ts.getLast hne := by
    conv_lhs => rw [hts]
    rw [joinKey_append_last sc ts.dropLast _ hdne]
  rw [hjoin]
  exact frequency_build_mono sc L _ _

/-- Witness for C5 at a concrete input. -/
theorem C5_witness :
    2 ≤ ([[ 'a' ], ['b']] : List (List Char)).length ∧
      (buildTST (some '#') [['a','#','b']]).frequency
          (joinKey '#' [['a'], ['b']]) ≤
        (buildTST (some '#') [['a','#','b']]).frequency
          (joinKey '#' ([['a'], ['b']] : List (List Char)).dropLast) :=
  ⟨by decide, C5_prefix_frequency_ge '#' [['a','#','b']] [['a'], ['b']]
    (by decide)⟩

/-- C9 (amended): for every tree and every non-empty key, the membership
test returns true iff the key's frequency is positive.  (The claim as
stated fails for the empty key, see the counterexample.) -/
theorem C9_contains_iff_frequency_pos (t : TernarySearchTree)
    (s : List Char) (hs : s ≠ []) :
    t.contains s = true ↔ 0 < t.frequency s := by
  rw [frequency_ne_nil t s hs]
  unfold TernarySearchTree.contains countAt
  cases nodeSearch s t.root with
  | nil => simp
  | node c k l e r => simp [Nat.pos_iff_ne_zero]

/-- C9 counterexample: after inserting `"ab"` into a fresh tree, the
membership test on the empty key returns false (the root node's count is
0), yet `frequency("")` is the total 1 > 0 — the claimed equivalence
fails for the empty key. -/
theorem C9_counterexample :
    ((emptyTST (some '#')).insert ['a','b']).contains [] = false ∧
      0 < ((emptyTST (some '#')).insert ['a','b']).frequency [] := by
  decide

/-- Witness for C9 (amended) at a concrete input. -/
theorem C9_witness :
    (((emptyTST (some '#')).insert ['a']).contains ['a'] = true ↔
      0 < ((emptyTST (some '#')).insert ['a']).frequency ['a']) ∧
      (['a'] : List Char) ≠ [] :=
  ⟨C9_contains_iff_frequency_pos ((emptyTST (some '#')).insert ['a']) ['a']
    (by decide), by decide⟩

/-- C10: after any finite sequence of single-key inserts into a fresh
tree, every key's frequency is at most the frequency of the empty key
(the total): each top-level insert raises the total by one and any
individual count by at most one. -/
theorem C10_frequency_le_total (sc : Option Char) (L : List (List Char))
    (k : List Char) :
    (buildTST sc L).frequency k ≤ (buildTST sc L).frequency [] := by
  by_cases hk : k = []
  · rw [hk]
  · rw [frequency_build sc L k hk, frequency_build_nil]
    exact List.countP_le_length _
theorem lmInsert_splitchar (m : LanguageModel) (key : List Char) (w : Nat)
    (subs : Bool) : (lmInsert m key w subs).splitchar = m.splitchar := rfl

theorem lmFrequency_mkLM (n : Nat) (b : List Char) (sc : Char)
    (vocab tg mc : Option (List Char → Bool)) (g : List (List Char)) :
    lmFrequency (mkLM n b sc vocab tg mc) g = 0 := by
  unfold lmFrequency mkLM TernarySearchTree.frequency
  by_cases h : joinKey sc g = [] <;> simp [h, emptyTST, nodeSearch_nil_tree]

theorem lmFrequency_insertTokens (m : LanguageModel) (g : List (List Char))
    (w : Nat) (subs : Bool) :
    lmFrequency (lmInsertTokens m g w subs) g = lmFrequency m g + w := by
  unfold lmFrequency lmInsertTokens lmInsert
  exact frequency_insertW_self m.counts (joinKey m.splitchar g) w subs

theorem lmFrequency_foldl_insertTokens (g : List (List Char)) (subs : Bool) :
    ∀ (ws : List Nat) (m : LanguageModel),
      lmFrequency (ws.foldl (fun m' w' => lmInsertTokens m' g w' subs) m) g =
        lmFrequency m g + ws.sum := by
  intro ws
  induction ws with
  | nil => intro m; simp
  | cons w ws ih =>
      intro m
      rw [List.foldl_cons, ih, lmFrequency_insertTokens]
      simp [List.sum_cons]
      omega

theorem lmFrequency_foldl_insertPairs (g : List (List Char)) (subs : Bool)
    (sc : Char) :
    ∀ (ws : List Nat) (m : LanguageModel), m.splitchar = sc →
      lmFrequency (lmInsertSequence m (ws.map (fun w' => (joinKey sc g, w')))
          subs) g = lmFrequency m g + ws.sum := by
  intro ws
  induction ws with
  | nil => intro m _; simp [lmInsertSequence]
  | cons w ws ih =>
      intro m hsc
      unfold lmInsertSequence
      rw [List.map_cons, List.foldl_cons]
      have h1 : lmInsert m (joinKey sc g, w).1 (joinKey sc g, w).2 subs =
          lmInsertTokens m g w subs := by
        unfold lmInsertTokens
        rw [hsc]
      rw [h1]
      have := ih (lmInsertTokens m g w subs) (by rw [← hsc]; rfl)
      unfold lmInsertSequence at this
      rw [this, lmFrequency_insertTokens]
      simp [List.sum_cons]
      omega

/-- C1: the language-model layer's weighted insert (and `insert_sequence`
over pairs) adds its weight to the inserted key's frequency, for either
value of the subsequence flag; inserting the same key with weights
`w₁..wₖ` into a fresh model yields `frequency(key) = Σwᵢ`.  (The weighted
tree insert is modelled from the spec, §4.1/§9.) -/
theorem C1_weighted_insert_adds_weight (m : LanguageModel)
    (g : List (List Char)) (w : Nat) (subs : Bool) (n : Nat) (b : List Char)
    (sc : Char) (vocab tg mc : Option (List Char → Bool)) (ws : List Nat)
    (subs' : Bool) :
    lmFrequency (lmInsertTokens m g w subs) g = lmFrequency m g + w ∧
      lmFrequency (ws.foldl (fun m' w' => lmInsertTokens m' g w' subs')
        (mkLM n b sc vocab tg mc)) g = ws.sum ∧
      lmFrequency (lmInsertSequence (mkLM n b sc vocab tg mc)
        (ws.map (fun w' => (joinKey sc g, w'))) subs') g = ws.sum := by
  refine ⟨lmFrequency_insertTokens m g w subs, ?_, ?_⟩
  · rw [lmFrequency_foldl_insertTokens g subs' ws (mkLM n b sc vocab tg mc),
      lmFrequency_mkLM]
    omega
  · rw [lmFrequency_foldl_insertPairs g subs' sc ws (mkLM n b sc vocab tg mc)
      rfl, lmFrequency_mkLM]
    omega
theorem trainOne_config (m : LanguageModel) (g : List (List Char)) :
    (trainOne m g).n = m.n ∧ (trainOne m g).boundary = m.boundary ∧
      (trainOne m g).targets = m.targets ∧
      (trainOne m g).splitchar = m.splitchar ∧
      (trainOne m g).vocabulary = m.vocabulary ∧
      (trainOne m g).mustContain = m.mustContain := by
  unfold trainOne
  cases hmc : m.mustContain with
  | none => exact ⟨rfl, rfl, rfl, rfl, rfl, rfl⟩
  | some p =>
      dsimp only
      split
      · exact ⟨rfl, rfl, rfl, rfl, rfl, rfl⟩
      · exact ⟨rfl, rfl, rfl, rfl, rfl, hmc⟩

theorem foldl_trainOne_config (es : List (List (List Char)))
    (m : LanguageModel) :
    (es.foldl trainOne m).n = m.n ∧
      (es.foldl trainOne m).boundary = m.boundary ∧
      (es.foldl trainOne m).targets = m.targets ∧
      (es.foldl trainOne m).splitchar = m.splitchar ∧
      (es.foldl trainOne m).vocabulary = m.vocabulary ∧
      (es.foldl trainOne m).mustContain = m.mustContain := by
  induction es generalizing m with
  | nil => exact ⟨rfl, rfl, rfl, rfl, rfl, rfl⟩
  | cons g es ih =>
      rw [List.foldl_cons]
      obtain ⟨h1, h2, h3, h4, h5, h6⟩ := ih (trainOne m g)
      obtain ⟨g1, g2, g3, g4, g5, g6⟩ := trainOne_config m g
      exact ⟨h1.trans g1, h2.trans g2, h3.trans g3, h4.trans g4,
        h5.trans g5, h6.trans g6⟩

/-- Accumulated events just prepend to later ones. -/
theorem stepEvents_append (n : Nat) (b : List Char) (tg : List Char → Bool) :
    ∀ (seq : List (List Char)) (es : List (List (List Char)))
      (w : List (List Char)),
      seq.foldl (stepEvents n b tg) (es, w) =
        (es ++ (seq.foldl (stepEvents n b tg) ([], w)).1,
          (seq.foldl (stepEvents n b tg) ([], w)).2) := by
  intro seq
  induction seq with
  | nil => intro es w; simp
  | cons t seq ih =>
      intro es w
      rw [List.foldl_cons, List.foldl_cons]
      have hstep : stepEvents n b tg (es, w) t =
          (es ++ (stepEvents n b tg ([], w) t).1,
            (stepEvents n b tg ([], w) t).2) := by
        unfold stepEvents
        dsimp only
        split
        · simp
        · split
          · split <;> simp
          · simp
      rw [hstep, ih (es ++ (stepEvents n b tg ([], w) t).1)
        (stepEvents n b tg ([], w) t).2]
      have h2 := ih (stepEvents n b tg ([], w) t).1
        (stepEvents n b tg ([], w) t).2
      rw [show stepEvents n b tg ([], w) t =
        ((stepEvents n b tg ([], w) t).1, (stepEvents n b tg ([], w) t).2)
        from rfl] at h2 ⊢
      rw [h2]
      simp [List.append_assoc]

/-- The element loop of `train` equals folding `_train` over the event
trace. -/
theorem foldl_trainStep_events :
    ∀ (seq : List (List Char)) (m : LanguageModel) (w : List (List Char)),
      seq.foldl trainStep (m, w) =
        ((seq.foldl (stepEvents m.n m.boundary m.targets) ([], w)).1.foldl
            trainOne m,
          (seq.foldl (stepEvents m.n m.boundary m.targets) ([], w)).2) := by
  intro seq
  induction seq with
  | nil => intro m w; simp
  | cons t seq ih =>
      intro m w
      rw [List.foldl_cons, List.foldl_cons]
      have hstep : trainStep (m, w) t =
          ((stepEvents m.n m.boundary m.targets ([], w) t).1.foldl
              trainOne m,
            (stepEvents m.n m.boundary m.targets ([], w) t).2) := by
        unfold trainStep stepEvents flushSuffixes
        dsimp only
        split
        · simp [List.foldl_map]
        · split
          · split <;> simp
          · simp
      rw [hstep]
      obtain ⟨h1, h2, h3, _, _, _⟩ := foldl_trainOne_config
        (stepEvents m.n m.boundary m.targets ([], w) t).1 m
      rw [ih ((stepEvents m.n m.boundary m.targets ([], w) t).1.foldl
        trainOne m) (stepEvents m.n m.boundary m.targets ([], w) t).2]
      rw [h1, h2, h3]
      have h4 := stepEvents_append m.n m.boundary m.targets seq
        (stepEvents m.n m.boundary m.targets ([], w) t).1
        (stepEvents m.n m.boundary m.targets ([], w) t).2
      rw [show stepEvents m.n m.boundary m.targets ([], w) t =
        ((stepEvents m.n m.boundary m.targets ([], w) t).1,
          (stepEvents m.n m.boundary m.targets ([], w) t).2) from rfl] at h4 ⊢
      rw [h4, List.foldl_append]

/-- `train` equals folding `_train` over its event trace. -/
theorem train_eq_events (m : LanguageModel) (seq : List (List Char)) :
    train m seq =
      (trainEvents m.n m.boundary m.targets seq).foldl trainOne m := by
  unfold train trainEvents trainEventsFrom
  rw [foldl_trainStep_events seq m []]
  obtain ⟨h1, _, _, _, _, _⟩ := foldl_trainOne_config
    (seq.foldl (stepEvents m.n m.boundary m.targets) ([], [])).1 m
  dsimp only
  rw [h1, List.foldl_append]
  unfold flushSuffixes
  simp [List.foldl_map]
/-- Folding `_train` over events is folding plain tree inserts over the
corresponding keys. -/
theorem foldl_trainOne_eq_inserts :
    ∀ (es : List (List (List Char))) (m : LanguageModel),
      es.foldl trainOne m =
        { m with counts := (eventKeys m.splitchar m.vocabulary m.mustContain
            es).foldl TernarySearchTree.insert m.counts } := by
  intro es
  induction es with
  | nil => intro m; rfl
  | cons g es ih =>
      intro m
      cases hmc : m.mustContain with
      | none =>
          have hto : trainOne m g =
              { m with counts := m.counts.insert (joinKey m.splitchar (g.takeWhile m.vocabulary)) } := by
            unfold trainOne
            rw [hmc]
          have hkeys : eventKeys m.splitchar m.vocabulary m.mustContain
              (g :: es) = joinKey m.splitchar (g.takeWhile m.vocabulary) ::
                eventKeys m.splitchar m.vocabulary m.mustContain es := by
            unfold eventKeys
            rw [List.filterMap_cons]
            dsimp only
            rw [hmc]
          rw [List.foldl_cons, hto, ih]
          dsimp only
          rw [hmc] at hkeys
          rw [hmc, hkeys, List.foldl_cons]
      | some p =>
          by_cases hany : (g.takeWhile m.vocabulary).any p = true
          · have hto : trainOne m g =
                { m with counts := m.counts.insert (joinKey m.splitchar (g.takeWhile m.vocabulary)) } := by
              unfold trainOne
              rw [hmc]
              dsimp only
              rw [if_pos hany]
            have hkeys : eventKeys m.splitchar m.vocabulary m.mustContain
                (g :: es) = joinKey m.splitchar (g.takeWhile m.vocabulary) ::
                  eventKeys m.splitchar m.vocabulary m.mustContain es := by
              unfold eventKeys
              rw [List.filterMap_cons]
              dsimp only
              rw [hmc]
              dsimp only
              rw [if_pos hany]
            rw [List.foldl_cons, hto, ih]
            dsimp only
            rw [hmc] at hkeys
            rw [hmc, hkeys, List.foldl_cons]
          · have hto : trainOne m g = m := by
              unfold trainOne
              rw [hmc]
              dsimp only
              rw [if_neg hany]
            have hkeys : eventKeys m.splitchar m.vocabulary m.mustContain
                (g :: es) =
                  eventKeys m.splitchar m.vocabulary m.mustContain es := by
              unfold eventKeys
              rw [List.filterMap_cons]
              dsimp only
              rw [hmc]
              dsimp only
              rw [if_neg hany]
            rw [List.foldl_cons, hto, ih]
            rw [hmc] at hkeys
            rw [hmc, hkeys]

/-- `train` only changes the model by folding plain tree inserts of its
`trainKeys` into the count store. -/
theorem train_counts (m : LanguageModel) (seq : List (List Char)) :
    train m seq = { m with counts :=
      (trainKeys m seq).foldl TernarySearchTree.insert m.counts } := by
  rw [train_eq_events, foldl_trainOne_eq_inserts]
  rfl

theorem buildTST_append (sc : Option Char) (L K : List (List Char)) :
    buildTST sc (L ++ K) =
      K.foldl TernarySearchTree.insert (buildTST sc L) := by
  unfold buildTST
  rw [List.foldl_append]

/-- Any model reachable from a fresh one by repeated `train` calls has a
count store built by plain inserts. -/
theorem counts_of_foldl_train (n : Nat) (b : List Char) (sc : Char)
    (vocab tg mc : Option (List Char → Bool)) :
    ∀ (ss : List (List (List Char))),
      ∃ L, (ss.foldl train (mkLM n b sc vocab tg mc)).splitchar = sc ∧
        (ss.foldl train (mkLM n b sc vocab tg mc)).counts =
          buildTST (some sc) L := by
  suffices h : ∀ (ss : List (List (List Char))) (m : LanguageModel),
      m.splitchar = sc → (∃ L, m.counts = buildTST (some sc) L) →
      ∃ L, (ss.foldl train m).splitchar = sc ∧
        (ss.foldl train m).counts = buildTST (some sc) L by
    intro ss
    exact h ss (mkLM n b sc vocab tg mc) rfl ⟨[], rfl⟩
  intro ss
  induction ss with
  | nil =>
      intro m hsc ⟨L, hL⟩
      exact ⟨L, hsc, hL⟩
  | cons seq ss ih =>
      intro m hsc ⟨L, hL⟩
      rw [List.foldl_cons]
      refine ih (train m seq) ?_ ?_
      · rw [train_counts]
        exact hsc
      · refine ⟨L ++ trainKeys m seq, ?_⟩
        rw [train_counts, buildTST_append]
        dsimp only
        rw [hL]

/-- Every stored frequency is bounded by the total (shared form). -/
theorem frequency_build_le_nil (sc : Option Char) (L : List (List Char))
    (k : List Char) :
    (buildTST sc L).frequency k ≤ (buildTST sc L).frequency [] := by
  by_cases hk : k = []
  · rw [hk]
  · rw [frequency_build sc L k hk, frequency_build_nil]
    exact List.countP_le_length _

/-- In a model whose counts were built by plain inserts, dropping the
last token of an n-gram cannot lower its frequency. -/
theorem lmFrequency_le_dropLast (m : LanguageModel) (L : List (List Char))
    (hc : m.counts = buildTST (some m.splitchar) L) (g : List (List Char)) :
    lmFrequency m g ≤ lmFrequency m g.dropLast := by
  unfold lmFrequency
  rw [hc]
  by_cases hg : g = []
  · subst hg
    exact le_refl _
  · by_cases hts : g.dropLast = []
    · rw [hts]
      exact frequency_build_le_nil (some m.splitchar) L _
    · have hg2 : g = g.dropLast ++ [g.getLast hg] :=
        (List.dropLast_append_getLast hg).symm
      have hj : joinKey m.splitchar g =
          joinKey m.splitchar g.dropLast ++
            m.splitchar :: g.getLast hg := by
        conv_lhs => rw [hg2]
        rw [joinKey_append_last _ _ _ hts]
      rw [hj]
      exact frequency_build_mono m.splitchar L _ _
theorem lmProbability_of_zero (m : LanguageModel) (g : List (List Char))
    (h : lmFrequency m g = 0) : lmProbability m g = 0 := by
  unfold lmProbability
  rw [h]
  simp

theorem lmProbability_of_ne_zero (m : LanguageModel) (g : List (List Char))
    (h : lmFrequency m g ≠ 0) :
    lmProbability m g =
      (lmFrequency m g : ℚ) / (lmFrequency m g.dropLast : ℚ) := by
  unfold lmProbability
  rw [if_neg h]

/-- C4: for every model trained from fresh by `train` calls and every
non-empty token sequence `g`, `_probability(g)` lies in [0, 1]; it is 0
whenever `frequency(g)` is 0 (the history's frequency is then never
read), and otherwise equals `frequency(g) / frequency(g without its last
token)`, whose denominator is provably nonzero — no division by zero. -/
theorem C4_probability_in_unit_interval (n : Nat) (b : List Char)
    (sc : Char) (vocab tg mc : Option (List Char → Bool))
    (ss : List (List (List Char))) (g : List (List Char)) (hg : g ≠ []) :
    0 ≤ lmProbability (ss.foldl train (mkLM n b sc vocab tg mc)) g ∧
      lmProbability (ss.foldl train (mkLM n b sc vocab tg mc)) g ≤ 1 ∧
      (lmFrequency (ss.foldl train (mkLM n b sc vocab tg mc)) g = 0 →
        lmProbability (ss.foldl train (mkLM n b sc vocab tg mc)) g = 0) ∧
      (lmFrequency (ss.foldl train (mkLM n b sc vocab tg mc)) g ≠ 0 →
        lmFrequency (ss.foldl train (mkLM n b sc vocab tg mc))
            g.dropLast ≠ 0 ∧
          lmProbability (ss.foldl train (mkLM n b sc vocab tg mc)) g =
            (lmFrequency (ss.foldl train (mkLM n b sc vocab tg mc)) g : ℚ) /
              (lmFrequency (ss.foldl train (mkLM n b sc vocab tg mc))
                g.dropLast : ℚ)) := by
  obtain ⟨L, hsc, hc⟩ := counts_of_foldl_train n b sc vocab tg mc ss
  have hle : lmFrequency (ss.foldl train (mkLM n b sc vocab tg mc)) g ≤
      lmFrequency (ss.foldl train (mkLM n b sc vocab tg mc)) g.dropLast :=
    lmFrequency_le_dropLast _ L (by rw [hsc]; exact hc) g
  by_cases hf : lmFrequency (ss.foldl train (mkLM n b sc vocab tg mc)) g = 0
  · rw [lmProbability_of_zero _ _ hf]
    exact ⟨le_refl 0, by norm_num, fun _ => rfl, fun h => absurd hf h⟩
  · have hfh : lmFrequency (ss.foldl train (mkLM n b sc vocab tg mc))
        g.dropLast ≠ 0 := by
      intro h0
      rw [h0] at hle
      exact hf (Nat.le_zero.mp hle)
    rw [lmProbability_of_ne_zero _ _ hf]
    have hposf : (0 : ℚ) <
        lmFrequency (ss.foldl train (mkLM n b sc vocab tg mc)) g := by
      exact_mod_cast Nat.pos_of_ne_zero hf
    have hposfh : (0 : ℚ) <
        lmFrequency (ss.foldl train (mkLM n b sc vocab tg mc)) g.dropLast := by
      exact_mod_cast Nat.pos_of_ne_zero hfh
    have hleQ : (lmFrequency (ss.foldl train (mkLM n b sc vocab tg mc))
        g : ℚ) ≤
        lmFrequency (ss.foldl train (mkLM n b sc vocab tg mc)) g.dropLast := by
      exact_mod_cast hle
    exact ⟨div_nonneg (le_of_lt hposf) (le_of_lt hposfh),
      (div_le_one hposfh).mpr hleQ, fun h => absurd h hf,
      fun _ => ⟨hfh, rfl⟩⟩

/-- Witness for C4 at a concrete trained model. -/
theorem C4_witness :
    ([[ 'A' ]] : List (List Char)) ≠ [] ∧
      (0 ≤ lmProbability ([[['A'], ['B']]].foldl train
          (mkLM 2 ['<','/','s','>'] '#' none none none)) [['A']] ∧
        lmProbability ([[['A'], ['B']]].foldl train
          (mkLM 2 ['<','/','s','>'] '#' none none none)) [['A']] ≤ 1 ∧
        (lmFrequency ([[['A'], ['B']]].foldl train
            (mkLM 2 ['<','/','s','>'] '#' none none none)) [['A']] = 0 →
          lmProbability ([[['A'], ['B']]].foldl train
            (mkLM 2 ['<','/','s','>'] '#' none none none)) [['A']] = 0) ∧
        (lmFrequency ([[['A'], ['B']]].foldl train
            (mkLM 2 ['<','/','s','>'] '#' none none none)) [['A']] ≠ 0 →
          lmFrequency ([[['A'], ['B']]].foldl train
              (mkLM 2 ['<','/','s','>'] '#' none none none))
              ([['A']] : List (List Char)).dropLast ≠ 0 ∧
            lmProbability ([[['A'], ['B']]].foldl train
              (mkLM 2 ['<','/','s','>'] '#' none none none)) [['A']] =
              (lmFrequency ([[['A'], ['B']]].foldl train
                (mkLM 2 ['<','/','s','>'] '#' none none none)) [['A']] : ℚ) /
                (lmFrequency ([[['A'], ['B']]].foldl train
                  (mkLM 2 ['<','/','s','>'] '#' none none none))
                  ([['A']] : List (List Char)).dropLast : ℚ))) :=
  ⟨by decide, C4_probability_in_unit_interval 2 ['<','/','s','>'] '#'
    none none none [[['A'], ['B']]] [['A']] (by decide)⟩
/-- C2 counterexample: with `vocabulary` absent (every token passes it)
and `targets = {"T"}`, training `["A","B"]` with n=2 never trains on the
full window `[A,B]` although its last token passes the vocabulary
predicate — the window-completion branch tests `targets`, not
`vocabulary`. -/
theorem C2_counterexample :
    (mkLM 2 ['<','/','s','>'] '#' none (some (fun t => t == ['T']))
        none).vocabulary ['B'] = true ∧
      trainKeys (mkLM 2 ['<','/','s','>'] '#' none
          (some (fun t => t == ['T'])) none) [['A'], ['B']] =
        [['A'], ['B']] ∧
      (['A','#','B'] : List Char) ∉
        trainKeys (mkLM 2 ['<','/','s','>'] '#' none
          (some (fun t => t == ['T'])) none) [['A'], ['B']] ∧
      lmFrequency (train (mkLM 2 ['<','/','s','>'] '#' none
          (some (fun t => t == ['T'])) none) [['A'], ['B']])
        [['A'], ['B']] = 0 := by
  decide

/-- C2 (amended): when appending a non-boundary token makes the window
reach length `n`, the model checks the token against the `targets`
predicate (not `vocabulary`): if it fails `targets`, it trains on the
window with that token dropped, otherwise on the full window (which
`_train` may still truncate at the first out-of-vocabulary token). -/
theorem C2_window_completion_checks_targets (m : LanguageModel)
    (w : List (List Char)) (tok : List Char) (hb : tok ≠ m.boundary)
    (hn : (pushWindow m.n w tok).length = m.n) :
    trainStep (m, w) tok =
      (trainOne m (if m.targets tok then pushWindow m.n w tok
        else (pushWindow m.n w tok).dropLast), pushWindow m.n w tok) := by
  unfold trainStep
  dsimp only
  rw [if_neg hb, if_pos hn]
  cases ht : m.targets tok <;> simp [ht]

/-- Witness for C2 (amended) at a concrete input. -/
theorem C2_witness :
    (['A'] : List Char) ≠ (mkLM 1 ['$'] '#' none none none).boundary ∧
      (pushWindow (mkLM 1 ['$'] '#' none none none).n [] ['A']).length =
        (mkLM 1 ['$'] '#' none none none).n ∧
      trainStep (mkLM 1 ['$'] '#' none none none, []) ['A'] =
        (trainOne (mkLM 1 ['$'] '#' none none none)
          (if (mkLM 1 ['$'] '#' none none none).targets ['A'] then
            pushWindow (mkLM 1 ['$'] '#' none none none).n [] ['A']
          else (pushWindow (mkLM 1 ['$'] '#' none none none).n []
            ['A']).dropLast),
          pushWindow (mkLM 1 ['$'] '#' none none none).n [] ['A']) :=
  ⟨by decide, by decide,
    C2_window_completion_checks_targets (mkLM 1 ['$'] '#' none none none)
      [] ['A'] (by decide) (by decide)⟩

/-- C7 counterexample: with n=3 and vocabulary {A,B}, training
`["A","B","C"]` also inserts the key `"B"` (from the trailing flush of
the window `[B,C]`), so the model does not train only on `[A,B]`. -/
theorem C7_counterexample :
    (['B'] : List Char) ∈
        trainKeys (mkLM 3 ['<','/','s','>'] '#'
          (some (fun t => t == ['A'] || t == ['B'])) none none)
          [['A'], ['B'], ['C']] ∧
      (['B'] : List Char) ≠ ['A','#','B'] ∧
      lmFrequency (train (mkLM 3 ['<','/','s','>'] '#'
          (some (fun t => t == ['A'] || t == ['B'])) none none)
          [['A'], ['B'], ['C']]) [['B']] = 1 := by
  decide

/-- C7 (amended): with n=3 and vocabulary {A,B}, `train(["A","B","C"])`
inserts exactly the keys `"A#B"` (the truncation of the full window
`[A,B,C]`), the empty key (truncation of the trailing event `[C]`), and
`"B"` (truncation of the trailing event `[B,C]`); in particular neither
`[A,B,C]` nor `[C]` is ever inserted. -/
theorem C7_trains_on_truncations :
    trainKeys (mkLM 3 ['<','/','s','>'] '#'
        (some (fun t => t == ['A'] || t == ['B'])) none none)
        [['A'], ['B'], ['C']] = [['A','#','B'], [], ['B']] ∧
      lmFrequency (train (mkLM 3 ['<','/','s','>'] '#'
          (some (fun t => t == ['A'] || t == ['B'])) none none)
          [['A'], ['B'], ['C']]) [['A'], ['B']] = 1 ∧
      lmFrequency (train (mkLM 3 ['<','/','s','>'] '#'
          (some (fun t => t == ['A'] || t == ['B'])) none none)
          [['A'], ['B'], ['C']]) [['A'], ['B'], ['C']] = 0 ∧
      lmFrequency (train (mkLM 3 ['<','/','s','>'] '#'
          (some (fun t => t == ['A'] || t == ['B'])) none none)
          [['A'], ['B'], ['C']]) [['C']] = 0 := by
  decide
theorem segsOn_ne_nil {α : Type} [DecidableEq α] (b : α) (l : List α) :
    segsOn b l ≠ [] := by
  cases l with
  | nil => simp [segsOn]
  | cons x xs =>
      unfold segsOn
      split
      · simp
      · split <;> simp

theorem mem_segsOn_not_mem {α : Type} [DecidableEq α] (b : α) :
    ∀ (l : List α) (seg : List α), seg ∈ segsOn b l → b ∉ seg := by
  intro l
  induction l with
  | nil =>
      intro seg h
      simp [segsOn] at h
      simp [h]
  | cons x xs ih =>
      intro seg h
      unfold segsOn at h
      by_cases hx : x = b
      · rw [if_pos hx] at h
        rcases List.mem_cons.mp h with rfl | h2
        · simp
        · exact ih seg h2
      · rw [if_neg hx] at h
        cases hS : segsOn b xs with
        | nil => exact absurd hS (segsOn_ne_nil b xs)
        | cons s ss =>
            rw [hS] at h
            rcases List.mem_cons.mp h with rfl | h2
            · intro hmem
              rcases List.mem_cons.mp hmem with rfl | hmem2
              · exact hx rfl
              · exact ih s (hS ▸ List.mem_cons_self s ss) hmem2
            · exact ih seg (hS ▸ List.mem_cons_of_mem s h2)

theorem segsOn_cons_eq {α : Type} [DecidableEq α] (b x : α) (xs : List α) :
    segsOn b (x :: xs) =
      if x = b then [] :: segsOn b xs
      else
        match segsOn b xs with
        | [] => [[x]]
        | s :: ss => (x :: s) :: ss := rfl

theorem segsOn_cons_ne {α : Type} [DecidableEq α] (b x : α) (xs : List α)
    (hx : ¬ x = b) :
    segsOn b (x :: xs) =
      match segsOn b xs with
      | [] => [[x]]
      | s :: ss => (x :: s) :: ss := by
  rw [segsOn_cons_eq, if_neg hx]

theorem segsOn_cons_self {α : Type} [DecidableEq α] (b : α) (xs : List α) :
    segsOn b (b :: xs) = [] :: segsOn b xs := by
  rw [segsOn_cons_eq, if_pos rfl]

theorem segsOn_append_no_b {α : Type} [DecidableEq α] (b : α) :
    ∀ (s0 r : List α), b ∉ s0 →
      segsOn b (s0 ++ r) =
        (s0 ++ (segsOn b r).headI) :: (segsOn b r).tail := by
  intro s0
  induction s0 with
  | nil =>
      intro r _
      cases hS : segsOn b r with
      | nil => exact absurd hS (segsOn_ne_nil b r)
      | cons s ss => simp [hS]
  | cons x s0 ih =>
      intro r hb
      have hx : ¬ x = b := fun h => hb (by simp [h])
      have hb0 : b ∉ s0 := fun h => hb (by simp [h])
      show segsOn b (x :: (s0 ++ r)) = _
      rw [segsOn_cons_ne b x _ hx, ih r hb0]
      simp

theorem suffix_append_single {α : Type} (w s0 : List α) (t : α)
    (h : w <:+ s0) : w ++ [t] <:+ s0 ++ [t] := by
  obtain ⟨u, hu⟩ := h
  exact ⟨u, by rw [← hu, List.append_assoc]⟩

theorem pushWindow_suffix (n : Nat) (w : List (List Char))
    (t : List Char) : pushWindow n w t <:+ w ++ [t] := by
  unfold pushWindow
  exact List.drop_suffix _ _

theorem trainEventsFrom_cons (n : Nat) (b : List Char)
    (tg : List Char → Bool) (w : List (List Char)) (t : List Char)
    (seq : List (List Char)) :
    trainEventsFrom n b tg w (t :: seq) =
      (stepEvents n b tg ([], w) t).1 ++
        trainEventsFrom n b tg (stepEvents n b tg ([], w) t).2 seq := by
  unfold trainEventsFrom
  rw [List.foldl_cons]
  have h := stepEvents_append n b tg seq (stepEvents n b tg ([], w) t).1
    (stepEvents n b tg ([], w) t).2
  rw [show stepEvents n b tg ([], w) t =
    ((stepEvents n b tg ([], w) t).1, (stepEvents n b tg ([], w) t).2)
    from rfl, h]
  dsimp only
  simp [List.append_assoc]

/-- The central invariant for C6: starting from a window that is a suffix
of a boundary-free context `s0`, every event produced over the rest of
the input is an infix of one boundary-free segment of `s0 ++ rest`. -/
theorem events_within_segments (n : Nat) (b : List Char)
    (tg : List Char → Bool) :
    ∀ (seq w s0 : List (List Char)), b ∉ s0 → w <:+ s0 →
      ∀ e ∈ trainEventsFrom n b tg w seq,
        ∃ seg ∈ segsOn b (s0 ++ seq), e <:+: seg := by
  intro seq
  induction seq with
  | nil =>
      intro w s0 hb hw e he
      unfold trainEventsFrom at he
      simp only [List.foldl_nil, List.nil_append] at he
      simp only [List.mem_map] at he
      obtain ⟨k, _, rfl⟩ := he
      have hseg : segsOn b (s0 ++ []) = [s0] := by
        rw [segsOn_append_no_b b s0 [] hb]
        simp [segsOn]
      refine ⟨s0, ?_, ?_⟩
      · rw [List.append_nil] at hseg ⊢
        rw [hseg]
        exact List.Mem.head _
      have hw' : (if w.length = n then w.drop 1 else w) <:+ w := by
        split
        · exact List.drop_suffix 1 w
        · exact List.suffix_refl w
      have hlast : lastTokens (if w.length = n then w.drop 1 else w) k <:+
          (if w.length = n then w.drop 1 else w) :=
        List.drop_suffix _ _
      exact ((hlast.trans hw').trans hw).isInfix
  | cons t seq ih =>
      intro w s0 hb hw e he
      rw [trainEventsFrom_cons] at he
      by_cases ht : t = b
      · have hstep : stepEvents n b tg ([], w) t =
            ((List.range' 1
              (w.length + (if w.length < n then 1 else 0) - 1)).map
                (lastTokens w), []) := by
          unfold stepEvents
          dsimp only
          rw [if_pos ht]
          simp
        rw [hstep] at he
        dsimp only at he
        have hsegs : segsOn b (s0 ++ t :: seq) = s0 :: segsOn b seq := by
          rw [ht, segsOn_append_no_b b s0 (b :: seq) hb]
          rw [segsOn_cons_self]
          simp
        rcases List.mem_append.mp he with he1 | he2
        · simp only [List.mem_map] at he1
          obtain ⟨k, _, rfl⟩ := he1
          refine ⟨s0, ?_, ?_⟩
          · rw [hsegs]
            exact List.Mem.head _
          exact ((List.drop_suffix _ _).trans hw).isInfix
        · obtain ⟨seg, hseg, hinf⟩ := ih [] [] (by simp) (by simp) e he2
          refine ⟨seg, ?_, hinf⟩
          rw [hsegs]
          simp only [List.nil_append] at hseg
          exact List.mem_cons_of_mem s0 hseg
      · have hbt : b ∉ s0 ++ [t] := by
          intro hmem
          rcases List.mem_append.mp hmem with h1 | h2
          · exact hb h1
          · simp at h2
            exact ht h2.symm
        have hw' : pushWindow n w t <:+ s0 ++ [t] :=
          (pushWindow_suffix n w t).trans (suffix_append_single w s0 t hw)
        have hassoc : s0 ++ t :: seq = (s0 ++ [t]) ++ seq := by
          simp
        have hstep : stepEvents n b tg ([], w) t =
            (if (pushWindow n w t).length = n then
              (if !(tg t) then [(pushWindow n w t).dropLast]
                else [pushWindow n w t])
            else [], pushWindow n w t) := by
          unfold stepEvents
          dsimp only
          rw [if_neg ht]
          split
          · split <;> simp
          · simp
        rw [hstep] at he
        dsimp only at he
        rcases List.mem_append.mp he with he1 | he2
        · -- the event created at this step, an infix of s0 ++ [t]
          have heinf : e <:+: s0 ++ [t] := by
            have hin : e = pushWindow n w t ∨
                e = (pushWindow n w t).dropLast := by
              by_cases hlen : (pushWindow n w t).length = n
              · rw [if_pos hlen] at he1
                cases htg : tg t
                · rw [htg] at he1
                  simp at he1
                  exact Or.inr he1
                · rw [htg] at he1
                  simp at he1
                  exact Or.inl he1
              · rw [if_neg hlen] at he1
                simp at he1
            rcases hin with rfl | rfl
            · exact hw'.isInfix
            · exact ((List.dropLast_prefix _).isInfix).trans hw'.isInfix
          obtain ⟨seg, hseg, hpre⟩ : ∃ seg ∈ segsOn b (s0 ++ t :: seq),
              (s0 ++ [t]) <+: seg := by
            rw [hassoc, segsOn_append_no_b b (s0 ++ [t]) seq hbt]
            exact ⟨(s0 ++ [t]) ++ (segsOn b seq).headI,
              List.mem_cons_self _ _, List.prefix_append _ _⟩
          exact ⟨seg, hseg, heinf.trans hpre.isInfix⟩
        · obtain ⟨seg, hseg, hinf⟩ :=
            ih (pushWindow n w t) (s0 ++ [t]) hbt hw' e he2
          rw [← hassoc] at hseg
          exact ⟨seg, hseg, hinf⟩
/-- C6: every event `train` passes to `_train` lies within one
boundary-free segment of the input sequence (the window is flushed and
cleared at each boundary token), and contains no boundary token; since
each inserted key is the splitchar-join of a prefix of such an event, no
trained n-gram spans an occurrence of the boundary. -/
theorem C6_no_event_spans_boundary (n : Nat) (b : List Char)
    (tg : List Char → Bool) (seq : List (List Char))
    (e : List (List Char)) (he : e ∈ trainEvents n b tg seq) :
    ∃ seg ∈ segsOn b seq, e <:+: seg ∧ b ∉ e := by
  obtain ⟨seg, hseg, hinf⟩ := events_within_segments n b tg seq [] []
    (by simp) (by simp) e he
  rw [List.nil_append] at hseg
  refine ⟨seg, hseg, hinf, ?_⟩
  intro hbe
  exact mem_segsOn_not_mem b seq seg hseg (hinf.subset hbe)

/-- Witness for C6 on `train(["A","B","</s>","C"])` with n=3. -/
theorem C6_witness :
    ([['A'], ['B']] : List (List Char)) ∈
        trainEvents 3 ['<','/','s','>'] (fun _ => true)
          [['A'], ['B'], ['<','/','s','>'], ['C']] ∧
      ∃ seg ∈ segsOn (['<','/','s','>'] : List Char)
          [['A'], ['B'], ['<','/','s','>'], ['C']],
        ([['A'], ['B']] : List (List Char)) <:+: seg ∧
          (['<','/','s','>'] : List Char) ∉
            ([['A'], ['B']] : List (List Char)) :=
  ⟨by decide, C6_no_event_spans_boundary 3 ['<','/','s','>'] (fun _ => true)
    [['A'], ['B'], ['<','/','s','>'], ['C']] [['A'], ['B']] (by decide)⟩
theorem medianElement_eq (a : List ℚ) :
    medianElement a =
      if pyGet a (searchsortedL a ((pyGet a 0 + pyGet a (-1)) / 2) : Int) -
            (pyGet a 0 + pyGet a (-1)) / 2 ≥
          (pyGet a 0 + pyGet a (-1)) / 2 -
            pyGet a
              ((searchsortedL a ((pyGet a 0 + pyGet a (-1)) / 2) : Int) - 1)
      then (searchsortedL a ((pyGet a 0 + pyGet a (-1)) / 2) : Int) - 1
      else (searchsortedL a ((pyGet a 0 + pyGet a (-1)) / 2) : Int) := rfl

/-- On the all-equal cumulative array `[1,1,1,1]` (zero-count tail), the
median index is the Python value `-1`: `searchsorted` returns 0 and the
negative index wraps to the last element. -/
theorem medianElement_ones : medianElement [1, 1, 1, 1] = -1 := by
  rw [medianElement_eq]
  have hmid : (pyGet [1, 1, 1, 1] 0 + pyGet [1, 1, 1, 1] (-1)) / 2 = 1 := by
    norm_num [pyGet]
  rw [hmid]
  have hmi : searchsortedL [1, 1, 1, 1] 1 = 0 := by
    have h1 : ¬ ((1 : ℚ) < 1) := lt_irrefl 1
    simp [searchsortedL, List.takeWhile, h1]
  rw [hmi]
  have hcond : pyGet [1, 1, 1, 1] ((0 : Nat) : Int) - 1 ≥
      1 - pyGet [1, 1, 1, 1] (((0 : Nat) : Int) - 1) := by
    norm_num [pyGet]
  rw [if_pos hcond]
  rfl

theorem recursiveMedian_ones_step (f : Nat) :
    recursiveMedian (f + 1) [1, 1, 1, 1] =
      -1 :: (recursiveMedian f [1, 1, 1] ++
        (recursiveMedian f [1, 1, 1, 1]).map (fun i => -1 + i + 1)) := by
  rw [recursiveMedian]
  norm_num [medianElement_ones, pySliceTo, pySliceFrom]

theorem recursiveMedian_ones3 :
    recursiveMedian 3 [1, 1, 1, 1] = [-1, 1, 0, 2, -1, 1, 0, 2, -1] := by
  rw [recursiveMedian_ones_step 2, recursiveMedian_ones_step 1,
    recursiveMedian_ones_step 0]
  have h3 : recursiveMedian 2 [1, 1, 1] = [1, 0, 2] := by
    rw [recursiveMedian]
    norm_num
  have h3' : recursiveMedian 1 [1, 1, 1] = [1, 0, 2] := by
    rw [recursiveMedian]
    norm_num
  rw [h3, h3']
  decide

theorem medianSplitVocabulary_zero_tail (f : Nat) :
    medianSplitVocabulary f [(['a'], 1), (['b'], 0), (['c'], 0), (['d'], 0)] =
      (recursiveMedian f [1, 1, 1, 1]).map
        (pyGetKey [['a'], ['b'], ['c'], ['d']]) := by
  unfold medianSplitVocabulary
  dsimp only
  have h1 : List.insertionSort (fun x y : List Char => x ≤ y)
      ([(['a'], (1:ℚ)), (['b'], 0), (['c'], 0), (['d'], 0)].map Prod.fst) =
        [['a'], ['b'], ['c'], ['d']] := by
    decide
  rw [h1]
  have h2 : ([['a'], ['b'], ['c'], ['d']].map
      (tableLookup [(['a'], 1), (['b'], 0), (['c'], 0), (['d'], 0)])) =
        ([1, 0, 0, 0] : List ℚ) := by
    decide
  rw [h2]
  have h3 : cumsum (([1, 0, 0, 0] : List ℚ).map
      (fun f => f / ([1, 0, 0, 0] : List ℚ).sum)) = [1, 1, 1, 1] := by
    norm_num [cumsum]
  rw [h3]

/-- C8 counterexample: the table `{a:1, b:0, c:0, d:0}` has distinct keys
and non-negative counts with one positive, yet the enumeration repeats
the key `['d']` (three times within recursion depth 3): it is not an
insertion order that yields every key exactly once.  (The source
generator never terminates on this input; deeper fuel only yields more
repeats.) -/
theorem C8_counterexample :
    (([(['a'], (1:ℚ)), (['b'], 0), (['c'], 0), (['d'], 0)].map Prod.fst)).Nodup ∧
      List.count ['d']
        (medianSplitVocabulary 3 [(['a'], 1), (['b'], 0), (['c'], 0), (['d'], 0)]) =
        3 := by
  refine ⟨by decide, ?_⟩
  rw [medianSplitVocabulary_zero_tail 3, recursiveMedian_ones3]
  decide
theorem getD_eq_get {α : Type} (d : α) :
    ∀ (l : List α) (i : Nat) (h : i < l.length), l.getD i d = l.get ⟨i, h⟩ := by
  intro l
  induction l with
  | nil => intro i h; simp at h
  | cons x xs ih =>
      intro i h
      cases i with
      | zero => rfl
      | succ j => exact ih j (by simpa using h)

theorem sorted_getD_lt (a : List ℚ) (ha : a.Sorted (· < ·)) (i j : Nat)
    (hij : i < j) (hj : j < a.length) : a.getD i 0 < a.getD j 0 := by
  have hi : i < a.length := lt_trans hij hj
  rw [getD_eq_get 0 a i hi, getD_eq_get 0 a j hj]
  exact List.Sorted.rel_get_of_lt ha (by exact hij)

theorem get_takeWhile_sat {α : Type} (p : α → Bool) (d : α) :
    ∀ (l : List α) (j : Nat), j < (l.takeWhile p).length →
      p (l.getD j d) = true := by
  intro l
  induction l with
  | nil => intro j hj; simp [List.takeWhile] at hj
  | cons x xs ih =>
      intro j hj
      rw [List.takeWhile_cons] at hj
      by_cases hx : p x
      · rw [if_pos hx] at hj
        cases j with
        | zero => exact hx
        | succ j' => exact ih j' (by simpa using hj)
      · rw [if_neg hx] at hj
        simp at hj

theorem get_takeWhile_stop {α : Type} (p : α → Bool) (d : α) :
    ∀ (l : List α), (l.takeWhile p).length < l.length →
      p (l.getD (l.takeWhile p).length d) = false := by
  intro l
  induction l with
  | nil => intro h; simp at h
  | cons x xs ih =>
      intro h
      rw [List.takeWhile_cons] at h ⊢
      by_cases hx : p x
      · rw [if_pos hx] at h ⊢
        have h' : (xs.takeWhile p).length < xs.length := by simpa using h
        have := ih h'
        simpa using this
      · rw [if_neg hx]
        simpa using hx

theorem length_takeWhile_le_local {α : Type} (p : α → Bool) :
    ∀ l : List α, (l.takeWhile p).length ≤ l.length := by
  intro l
  induction l with
  | nil => simp
  | cons x xs ih =>
      rw [List.takeWhile_cons]
      by_cases hx : p x
      · rw [if_pos hx]
        simpa using ih
      · rw [if_neg hx]
        simp

/-- On a strictly increasing array of at least four entries,
`median_element` returns an index in `[1, len-2]`: both recursive
sub-ranges are non-empty. -/
theorem medianElement_bounds (a : List ℚ) (ha : a.Sorted (· < ·))
    (h4 : 4 ≤ a.length) :
    1 ≤ medianElement a ∧ medianElement a ≤ (a.length : Int) - 2 := by
  rw [medianElement_eq]
  have hg0 : pyGet a 0 = a.getD 0 0 := by simp [pyGet]
  have hgl : pyGet a (-1) = a.getD (a.length - 1) 0 := by
    simp [pyGet]
  rw [hg0, hgl]
  set n := a.length with hn
  set a0 := a.getD 0 0 with ha0
  set al := a.getD (n - 1) 0 with hal
  set mid := (a0 + al) / 2 with hmid
  set mi := searchsortedL a mid with hmi
  have hmi' : mi = (a.takeWhile (fun x => decide (x < mid))).length := hmi
  have h0l : a0 < al := sorted_getD_lt a ha 0 (n - 1) (by omega) (by omega)
  have hmid2 : mid * 2 = a0 + al := by rw [hmid]; ring
  have hmidgt : a0 < mid := by linarith
  have hmidlt : mid < al := by linarith
  have hsat : ∀ j, j < mi → a.getD j 0 < mid := by
    intro j hj
    rw [hmi'] at hj
    have := get_takeWhile_sat (fun x => decide (x < mid)) 0 a j hj
    simpa using this
  have hmi_le : mi ≤ n := by
    rw [hmi']
    exact length_takeWhile_le_local _ a
  have hmi_lt : mi < n := by
    rcases Nat.lt_or_ge mi n with h | h
    · exact h
    · exfalso
      have hj := hsat (n - 1) (by omega)
      rw [← hal] at hj
      linarith
  have hmi_pos : 1 ≤ mi := by
    by_contra h
    have hz : (a.takeWhile (fun x => decide (x < mid))).length = 0 := by
      rw [← hmi']
      omega
    have hlen0 : (a.takeWhile (fun x => decide (x < mid))).length < a.length := by
      rw [hz]
      omega
    have hstop := get_takeWhile_stop (fun x => decide (x < mid)) 0 a hlen0
    rw [hz] at hstop
    simp only [decide_eq_false_iff_not] at hstop
    rw [← ha0] at hstop
    exact hstop hmidgt
  have hup : mid ≤ a.getD mi 0 := by
    have hlt : (a.takeWhile (fun x => decide (x < mid))).length < a.length := by
      rw [← hmi']
      exact hmi_lt
    have hstop := get_takeWhile_stop (fun x => decide (x < mid)) 0 a hlt
    rw [← hmi'] at hstop
    simp only [decide_eq_false_iff_not] at hstop
    exact not_lt.mp hstop
  have hpg_mi : pyGet a ((mi : Nat) : Int) = a.getD mi 0 := by
    simp [pyGet]
  have hpg_mi1 : pyGet a (((mi : Nat) : Int) - 1) = a.getD (mi - 1) 0 := by
    rw [pyGet, if_pos (by omega : (0 : Int) ≤ ((mi : Nat) : Int) - 1)]
    congr 1
    omega
  rw [hpg_mi, hpg_mi1]
  by_cases hcond : a.getD mi 0 - mid ≥ mid - a.getD (mi - 1) 0
  · rw [if_pos hcond]
    constructor
    · by_contra hcon
      have hm1 : mi = 1 := by omega
      rw [hm1] at hcond
      have h11 : (1 : Nat) - 1 = 0 := rfl
      rw [h11, ← ha0] at hcond
      have h1n : a.getD 1 0 < al := sorted_getD_lt a ha 1 (n - 1)
        (by omega) (by omega)
      linarith
    · omega
  · rw [if_neg hcond]
    constructor
    · omega
    · by_contra hcon
      have hmn : mi = n - 1 := by omega
      rw [hmn] at hcond
      have hee : n - 1 - 1 = n - 2 := by omega
      rw [hee] at hcond
      rw [← hal] at hcond
      have h2 : a0 < a.getD (n - 2) 0 := sorted_getD_lt a ha 0 (n - 2)
        (by omega) (by omega)
      push_neg at hcond
      linarith
theorem map_ext_local {α β : Type} (f g : α → β) (h : ∀ x, f x = g x)
    (l : List α) : l.map f = l.map g := by
  rw [show f = g from funext h]

theorem range_perm_split (len mn : Nat) (h1 : mn < len) :
    (List.range len).Perm
      (mn :: (List.range mn ++
        (List.range (len - mn - 1)).map (fun j => mn + 1 + j))) := by
  have hEq : List.range len = List.range mn ++
      (mn :: (List.range (len - mn - 1)).map (fun j => mn + 1 + j)) := by
    have hlen : len = mn + ((len - mn - 1) + 1) := by omega
    conv_lhs => rw [hlen]
    rw [List.range_add, List.range_succ_eq_map, List.map_cons, List.map_map,
      Nat.add_zero]
    congr 1
    congr 1
    exact map_ext_local _ _
      (fun j => by show mn + Nat.succ j = mn + 1 + j; omega) _
  rw [hEq]
  exact List.perm_middle

/-- The recursive median split enumerates every index of a strictly
increasing non-empty array exactly once, given fuel at least the array
length. -/
theorem recursiveMedian_perm :
    ∀ (fuel : Nat) (a : List ℚ), a.Sorted (· < ·) → 1 ≤ a.length →
      a.length ≤ fuel →
      (recursiveMedian fuel a).Perm ((List.range a.length).map Int.ofNat) := by
  intro fuel
  induction fuel with
  | zero =>
      intro a _ h1 h2
      exact (Nat.not_succ_le_zero 0 (le_trans h1 h2)).elim
  | succ fuel ih =>
      intro a ha h1 hf
      rw [recursiveMedian]
      by_cases h3 : a.length = 3
      · rw [if_pos h3, h3]
        decide
      · rw [if_neg h3]
        by_cases h2 : a.length = 2
        · rw [if_pos h2, h2]
          decide
        · rw [if_neg h2]
          by_cases h1' : a.length = 1
          · rw [if_pos h1', h1']
            decide
          · rw [if_neg h1']
            dsimp only
            have h4 : 4 ≤ a.length := by omega
            obtain ⟨hb1, hb2⟩ := medianElement_bounds a ha h4
            set m := medianElement a with hm
            set mn := m.toNat with hmn
            have hm0 : (0 : Int) ≤ m := by omega
            have hmnm : ((mn : Nat) : Int) = m := by omega
            have hmn1 : 1 ≤ mn := by omega
            have hmn2 : mn ≤ a.length - 2 := by omega
            have hleft : pySliceTo a m = a.take mn := by
              rw [pySliceTo, if_pos hm0]
            have hlleft : (a.take mn).length = mn := by
              rw [List.length_take]
              omega
            have hsleft : (a.take mn).Sorted (· < ·) :=
              List.Pairwise.sublist (List.take_sublist mn a) ha
            have hpermL := ih (a.take mn) hsleft (by omega) (by omega)
            have hright : pySliceFrom a (m + 1) = a.drop (mn + 1) := by
              rw [pySliceFrom, if_pos (by omega : (0 : Int) ≤ m + 1)]
              congr 1
              omega
            have hlright : (a.drop (mn + 1)).length = a.length - mn - 1 := by
              rw [List.length_drop]
              omega
            have hsright : (a.drop (mn + 1)).Sorted (· < ·) :=
              List.Pairwise.sublist (List.drop_sublist (mn + 1) a) ha
            have hpermR := ih (a.drop (mn + 1)) hsright (by omega) (by omega)
            rw [hleft, hright]
            rw [hlleft] at hpermL
            rw [hlright] at hpermR
            have hmapR := hpermR.map (fun i => m + i + 1)
            have hcomp : ((List.range (a.length - mn - 1)).map
                Int.ofNat).map (fun i => m + i + 1) =
                ((List.range (a.length - mn - 1)).map
                  (fun j => mn + 1 + j)).map Int.ofNat := by
              rw [List.map_map, List.map_map]
              refine map_ext_local _ _ (fun j => ?_) _
              show m + (j : Int) + 1 = ((mn + 1 + j : Nat) : Int)
              push_cast
              omega
            rw [hcomp] at hmapR
            have hperm1 := (range_perm_split a.length mn (by omega)).map
              Int.ofNat
            refine List.Perm.trans ?_ hperm1.symm
            rw [List.map_cons, List.map_append]
            have hmm : Int.ofNat mn = m := hmnm
            rw [hmm]
            exact List.Perm.cons m (hpermL.append hmapR)
theorem cumsum_length (l : List ℚ) : (cumsum l).length = l.length := by
  induction l with
  | nil => rfl
  | cons x xs ih => simp [cumsum, ih]

theorem cumsum_pos (l : List ℚ) (h : ∀ x ∈ l, 0 < x) :
    ∀ z ∈ cumsum l, 0 < z := by
  induction l with
  | nil => intro z hz; simp [cumsum] at hz
  | cons x xs ih =>
      intro z hz
      rw [cumsum] at hz
      rcases List.mem_cons.mp hz with rfl | hz2
      · exact h z (by simp)
      · obtain ⟨w, hw, rfl⟩ := List.mem_map.mp hz2
        have hx : 0 < x := h x (by simp)
        have hw' : 0 < w := ih (fun y hy => h y (by simp [hy])) w hw
        linarith

/-- The cumulative sums of positive entries are strictly increasing. -/
theorem cumsum_sorted (l : List ℚ) (h : ∀ x ∈ l, 0 < x) :
    (cumsum l).Sorted (· < ·) := by
  induction l with
  | nil => simp [cumsum, List.Sorted]
  | cons x xs ih =>
      rw [cumsum]
      refine List.sorted_cons.mpr ⟨?_, ?_⟩
      · intro y hy
        obtain ⟨w, hw, rfl⟩ := List.mem_map.mp hy
        have hw' : 0 < w :=
          cumsum_pos xs (fun y hy => h y (by simp [hy])) w hw
        linarith
      · have hs := ih (fun y hy => h y (by simp [hy]))
        exact List.Pairwise.map _ (fun a b hab => by linarith) hs

theorem tableLookup_pos (tbl : List (List Char × ℚ))
    (hpos : ∀ p ∈ tbl, 0 < p.2) (s : List Char)
    (hs : s ∈ tbl.map Prod.fst) : 0 < tableLookup tbl s := by
  obtain ⟨p, hp, rfl⟩ := List.mem_map.mp hs
  have hex : (tbl.find? (fun q => q.1 == p.1)).isSome := by
    rw [List.find?_isSome]
    exact ⟨p, hp, by simp⟩
  obtain ⟨q, hq⟩ := Option.isSome_iff_exists.mp hex
  have hqmem : q ∈ tbl := List.mem_of_find?_eq_some hq
  unfold tableLookup
  rw [hq]
  exact hpos q hqmem

theorem map_getD_range {α : Type} (d : α) :
    ∀ l : List α, (List.range l.length).map (fun k => l.getD k d) = l := by
  intro l
  induction l with
  | nil => rfl
  | cons x xs ih =>
      rw [List.length_cons, List.range_succ_eq_map, List.map_cons,
        List.map_map]
      have hmap : (List.range xs.length).map
          ((fun k => (x :: xs).getD k d) ∘ Nat.succ) =
          (List.range xs.length).map (fun k => xs.getD k d) :=
        map_ext_local _ _ (fun k => rfl) _
      rw [hmap, ih]
      rfl

/-- C8 (amended): for a non-empty table of distinct keys with all counts
positive, `median_split_vocabulary` (run with fuel at least the table
size) is an insertion order of the table's keys: finite, every key
exactly once, nothing else.  (The claim's weaker hypothesis — merely
non-negative counts with one positive — fails: see the counterexample,
where the enumeration never terminates and repeats keys.) -/
theorem C8_median_split_is_permutation (tbl : List (List Char × ℚ))
    (fuel : Nat) (hne : tbl ≠ []) (hnd : (tbl.map Prod.fst).Nodup)
    (hpos : ∀ p ∈ tbl, 0 < p.2) (hfuel : tbl.length ≤ fuel) :
    (medianSplitVocabulary fuel tbl).Perm (tbl.map Prod.fst) := by
  unfold medianSplitVocabulary
  dsimp only
  have hperm : (List.insertionSort (fun x y : List Char => x ≤ y)
      (tbl.map Prod.fst)).Perm (tbl.map Prod.fst) :=
    List.perm_insertionSort _ _
  set strings := List.insertionSort (fun x y : List Char => x ≤ y)
    (tbl.map Prod.fst) with hstr
  have hslen : strings.length = tbl.length := by
    rw [hperm.length_eq, List.length_map]
  set freqs := strings.map (tableLookup tbl) with hfr
  have hfpos : ∀ x ∈ freqs, 0 < x := by
    intro x hx
    obtain ⟨s, hs, rfl⟩ := List.mem_map.mp hx
    exact tableLookup_pos tbl hpos s (hperm.subset hs)
  have hfne : freqs ≠ [] := by
    intro h
    apply hne
    have h0 : freqs.length = 0 := by rw [h]; rfl
    rw [hfr, List.length_map, hslen] at h0
    exact List.length_eq_zero.mp h0
  have hsum : 0 < freqs.sum := List.sum_pos freqs hfpos hfne
  set probs := freqs.map (fun f => f / freqs.sum) with hpr
  have hppos : ∀ x ∈ probs, 0 < x := by
    intro x hx
    obtain ⟨f, hf, rfl⟩ := List.mem_map.mp hx
    exact div_pos (hfpos f hf) hsum
  have hcs : (cumsum probs).Sorted (· < ·) := cumsum_sorted probs hppos
  have hclen : (cumsum probs).length = strings.length := by
    rw [cumsum_length, hpr, List.length_map, hfr, List.length_map]
  have h1 : 1 ≤ (cumsum probs).length := by
    rw [hclen, hslen]
    have := List.length_pos.mpr hne
    omega
  have hperm2 := recursiveMedian_perm fuel (cumsum probs) hcs h1
    (by rw [hclen, hslen]; exact hfuel)
  have hmap := hperm2.map (pyGetKey strings)
  have hback : ((List.range (cumsum probs).length).map Int.ofNat).map
      (pyGetKey strings) = strings := by
    rw [List.map_map, hclen]
    have hpt : (List.range strings.length).map
        (pyGetKey strings ∘ Int.ofNat) =
        (List.range strings.length).map (fun k => strings.getD k []) := by
      refine map_ext_local _ _ (fun k => ?_) _
      show pyGetKey strings (Int.ofNat k) = strings.getD k []
      rfl
    rw [hpt, map_getD_range]
  rw [hback] at hmap
  exact hmap.trans hperm

/-- Witness for C8 (amended) on a concrete two-key table. -/
theorem C8_witness :
    (medianSplitVocabulary 2 [(['a'], 2), (['b'], 1)]).Perm
      ([(['a'], (2 : ℚ)), (['b'], 1)].map Prod.fst) :=
  C8_median_split_is_permutation [(['a'], 2), (['b'], 1)] 2 (by simp)
    (by decide) (by norm_num) (by simp)
